import Mathlib

/-!
Verification of the `clir` CLI router (src/clir.go): a shallow embedding of
its data model (segments, routes, params, requests), the match/rank
algorithm (`matchArgv`), dispatch (`bestMatch` / `Run`), the builder layer
(prefixes and middleware), and the typed-context resolver layer
(`WithContext` / `WithChildContext`), together with theorems checking the
specification's claims about them.

Go `error` values are modelled as `Option String` (a `nil` error is
`none`); handler and resolver side effects are modelled by threading an
explicit state of type `σ`; the `uint64` rank is modelled as `Nat` (every
value the code constructs stays below `2 ^ 64` because it ORs 2-bit codes
at shifts `2 * (32 - 1 - i)` with `i < 32`).
-/

namespace Clir

/-- `Params` (src/clir.go): `map[string]string`. Modelled as a lookup
function; `Params.empty` is the `nil` / empty map (all lookups miss). -/
def Params : Type := String → Option String

def Params.empty : Params := fun _ => none

/-- Go map assignment `params[k] = v`. -/
def Params.insert (m : Params) (k v : String) : Params :=
  fun q => if q = k then some v else m q

/-- `segment` (src/clir.go): `lit` non-empty for a static segment, `param`
non-empty for a `<name>` segment, `sort` an optional sort/level hint. -/
structure Segment where
  lit : String := ""
  param : String := ""
  sort : Int := 0
deriving DecidableEq

def seg0 : Segment := {}

def litSeg (s : String) : Segment := { lit := s }

def paramSeg (s : String) : Segment := { param := s }

/-- Helper for `goAtoi`: decimal digits left to right, `none` on a
non-digit (Go's `strconv.Atoi` accepts ASCII digits only). -/
def parseDigitsAux : List Char → Nat → Option Nat
  | [], acc => some acc
  | c :: cs, acc =>
      if c.isDigit then parseDigitsAux cs (acc * 10 + (c.toNat - 48))
      else none

/-- Go's `strconv.Atoi`: optional single `+`/`-` sign, at least one ASCII
digit, and the value must fit a 64-bit `int` (out-of-range input is an
error, hence `none`). `parseSegments` only tests `err == nil`, so `none`
exactly captures "not a pure integer token". -/
def goAtoi (s : String) : Option Int :=
  let signAndDigits : Int × List Char :=
    match s.data with
    | '+' :: rest => (1, rest)
    | '-' :: rest => (-1, rest)
    | rest => (1, rest)
  match signAndDigits.2 with
  | [] => none
  | ds =>
      match parseDigitsAux ds 0 with
      | none => none
      | some n =>
          let v : Int := signAndDigits.1 * (n : Int)
          if v < -(2 ^ 63) ∨ (2 ^ 63 - 1 : Int) < v then none else some v

/-- Go's `unicode.IsSpace` (the code points of Unicode `White_Space`). -/
def goIsSpace (c : Char) : Bool :=
  List.contains
    [0x9, 0xA, 0xB, 0xC, 0xD, 0x20, 0x85, 0xA0, 0x1680,
     0x2000, 0x2001, 0x2002, 0x2003, 0x2004, 0x2005, 0x2006, 0x2007,
     0x2008, 0x2009, 0x200A, 0x2028, 0x2029, 0x202F, 0x205F, 0x3000]
    c.toNat

/-- Helper for `goFields`: splits a character list around runs of white
space; `acc` holds the current word reversed. -/
def fieldsGo : List Char → List Char → List String
  | [], acc => if acc = [] then [] else [String.mk acc.reverse]
  | c :: cs, acc =>
      if goIsSpace c then
        if acc = [] then fieldsGo cs []
        else String.mk acc.reverse :: fieldsGo cs []
      else fieldsGo cs (c :: acc)

/-- Go's `strings.Fields`: white-space separated words of `s`. -/
def goFields (s : String) : List String := fieldsGo s.data []

/-- The loop body of `parseSegments` (src/clir.go lines 137-160): a pure
integer token updates the pending sort hint; otherwise a token bracketed
as `<name>` becomes a param segment, any other token a literal segment,
carrying the pending hint which is then reset to 0. -/
def parseSegLoop : List String → Int → List Segment
  | [], _ => []
  | p :: rest, pendingSort =>
      match goAtoi p with
      | some n => parseSegLoop rest n
      | none =>
          let s : Segment :=
            if p.data.head? = some '<' ∧ p.data.getLast? = some '>' then
              { param := String.mk (p.data.drop 1).dropLast, sort := pendingSort }
            else
              { lit := p, sort := pendingSort }
          s :: parseSegLoop rest 0

/-- `parseSegments` (src/clir.go): the loop starts with pending hint 0. -/
def parseSegments (parts : List String) : List Segment :=
  parseSegLoop parts 0

/-- `Request` (src/clir.go): the full argv, the captured params and the
tokens beyond the pattern. The embedded `context.Context` only carries
caller values and is out of scope here, so it is omitted. -/
structure Request where
  args : List String
  params : Params
  extra : List String

/-- `Handler` (src/clir.go): `func(req *Request) error`, with its side
effects modelled by explicit state passing on `σ` and its `error` result
as `Option String`. -/
def Handler (σ : Type) : Type := Request → σ → σ × Option String

/-- `Middleware` (src/clir.go): `func(Handler) Handler`. -/
def Middleware (σ : Type) : Type := Handler σ → Handler σ

/-- `route` (src/clir.go). -/
structure Route (σ : Type) where
  segments : List Segment
  handler : Handler σ
  desc : String

/-- `Router` (src/clir.go): the registered route table. -/
structure Router (σ : Type) where
  routes : List (Route σ)

def emptyRouter (σ : Type) : Router σ := ⟨[]⟩

/-- `Router.Handle` (src/clir.go): split the pattern into fields, parse
them into segments and append the new route. -/
def Router.Handle {σ : Type} (r : Router σ) (pattern desc : String) (h : Handler σ) :
    Router σ :=
  ⟨r.routes ++ [⟨parseSegments (goFields pattern), h, desc⟩]⟩

/-- The loop body of `matchArgv` (src/clir.go lines 202-223): walk the
segments left to right, `i` the current position, ORing the 2-bit code
`0b10` (literal match) or `0b01` (param match) at shift
`2 * (32 - 1 - i)`; a literal mismatch or a segment with neither kind
aborts with rank 0 and nil params. -/
def matchLoop : List Segment → List String → Nat → Nat → Params → Nat × Params
  | [], _, _, rank, params => (rank, params)
  | s :: rest, argv, i, rank, params =>
      let arg := argv.getD i ""
      if s.lit ≠ "" then
        if arg ≠ s.lit then (0, Params.empty)
        else matchLoop rest argv (i + 1) (rank ||| (2 <<< (2 * (32 - 1 - i)))) params
      else if s.param ≠ "" then
        matchLoop rest argv (i + 1) (rank ||| (1 <<< (2 * (32 - 1 - i))))
          (params.insert s.param arg)
      else (0, Params.empty)

/-- `matchArgv` (src/clir.go lines 192-226) on a route's segment list:
rank 0 if argv is shorter than the pattern or the pattern has more than
32 segments; otherwise the loop starting from rank 0 and fresh params. -/
def matchArgv (segs : List Segment) (argv : List String) : Nat × Params :=
  if argv.length < segs.length then (0, Params.empty)
  else if segs.length > 32 then (0, Params.empty)
  else matchLoop segs argv 0 0 Params.empty

/-- The running best of `bestMatch`: index of the route, its rank, its
params and the argv remainder captured when it became best. -/
structure Cand where
  idx : Nat
  rank : Nat
  params : Params
  extra : List String

/-- The scan loop of `bestMatch` (src/clir.go lines 240-254): skip rank-0
routes, replace the running best only under strictly greater rank. -/
def bestLoop {σ : Type} (argv : List String) :
    List (Route σ) → Nat → Option Cand → Option Cand
  | [], _, best => best
  | rt :: rest, i, best =>
      let mp := matchArgv rt.segments argv
      if mp.1 = 0 then bestLoop argv rest (i + 1) best
      else
        match best with
        | none =>
            bestLoop argv rest (i + 1)
              (some ⟨i, mp.1, mp.2, argv.drop rt.segments.length⟩)
        | some b =>
            if mp.1 > b.rank then
              bestLoop argv rest (i + 1)
                (some ⟨i, mp.1, mp.2, argv.drop rt.segments.length⟩)
            else bestLoop argv rest (i + 1) best

/-- `bestMatch` (src/clir.go lines 230-267): the winning route (as its
index in the table, standing for the returned `*route`) and the built
`Request`, or `none` when nothing matched. -/
def Router.bestMatch {σ : Type} (r : Router σ) (argv : List String) :
    Option (Nat × Request) :=
  match bestLoop argv r.routes 0 none with
  | none => none
  | some b => some (b.idx, ⟨argv, b.params, b.extra⟩)

def defaultRoute (σ : Type) : Route σ := ⟨[], fun _ s => (s, none), ""⟩

/-- `Run` (src/clir.go lines 271-277): dispatch, returning the "no
matching command" error when nothing matched, otherwise the winning
handler's result. -/
def Router.Run {σ : Type} (r : Router σ) (argv : List String) (s : σ) :
    σ × Option String :=
  match r.bestMatch argv with
  | none => (s, some "no matching command")
  | some (i, req) => (r.routes.getD i (defaultRoute σ)).handler req s


/-- `Builder` (src/clir.go lines 335-339), value level: the accumulated
prefix fields and middleware stack. The shared `*Router` is threaded
explicitly through `Builder.Handle`; the allocation behaviour of the
copy-on-branch slices is modelled separately below (`AStore`). -/
structure Builder (σ : Type) where
  pfx : List String
  mws : List (Middleware σ)

/-- The child builder made by `Builder.Route` (src/clir.go lines 351-359):
copy of the prefix extended by the fields of `path`, copy of the
middleware stack. -/
def Builder.RouteChild {σ : Type} (b : Builder σ) (path : String) : Builder σ :=
  ⟨b.pfx ++ goFields path, b.mws⟩

/-- `Builder.With` (src/clir.go lines 368-374): copy of the prefix, copy
of the middleware stack extended by `ms`. -/
def Builder.With {σ : Type} (b : Builder σ) (ms : List (Middleware σ)) : Builder σ :=
  ⟨b.pfx, b.mws ++ ms⟩

/-- The middleware application loop of `Builder.Handle` (src/clir.go lines
388-391): `for i := len(mws)-1; i >= 0; i-- { wrapped = mws[i](wrapped) }`,
so the first middleware of the list ends up outermost. -/
def wrapLoop {σ : Type} : List (Middleware σ) → Handler σ → Handler σ
  | [], h => h
  | m :: rest, h => m (wrapLoop rest h)

/-- `Builder.Handle` (src/clir.go lines 382-394): join prefix and relative
path into the full pattern, wrap the handler in the middleware stack and
register it with the router. -/
def Builder.Handle {σ : Type} (b : Builder σ) (r : Router σ) (path desc : String)
    (h : Handler σ) : Router σ :=
  r.Handle (String.intercalate " " (b.pfx ++ goFields path)) desc (wrapLoop b.mws h)

/-- `Resolver[T]` (src/clir.go): `func(*Request) (T, error)`, with side
effects threaded through `σ`. -/
def Resolver (σ : Type) (T : Type) : Type := Request → σ → σ × Except String T

/-- `ContextHandler[T]` (src/clir.go): `func(req *Request, ctx T) error`. -/
def ContextHandler (σ : Type) (T : Type) : Type := Request → T → σ → σ × Option String

/-- `ContextBuilder[T]` (src/clir.go lines 408-411). -/
structure ContextBuilder (σ : Type) (T : Type) where
  base : Builder σ
  resolve : Resolver σ T

/-- The child made by `ContextBuilder.Route` (src/clir.go lines 415-425):
same copy-and-extend on the base builder, same resolver. -/
def ContextBuilder.RouteChild {σ T : Type} (b : ContextBuilder σ T) (path : String) :
    ContextBuilder σ T :=
  ⟨⟨b.base.pfx ++ goFields path, b.base.mws⟩, b.resolve⟩

/-- `ContextBuilder.With` (src/clir.go lines 428-438). -/
def ContextBuilder.With {σ T : Type} (b : ContextBuilder σ T)
    (ms : List (Middleware σ)) : ContextBuilder σ T :=
  ⟨⟨b.base.pfx, b.base.mws ++ ms⟩, b.resolve⟩

/-- The base handler built by `ContextBuilder.Handle` (src/clir.go lines
448-454): run the resolver, fail with its error, otherwise call the typed
handler with the request and the resolved value. -/
def ctxBaseHandler {σ T : Type} (resolve : Resolver σ T) (h : ContextHandler σ T) :
    Handler σ :=
  fun req s =>
    match resolve req s with
    | (s1, .error e) => (s1, some e)
    | (s1, .ok v) => h req v s1

/-- `ContextBuilder.Handle` (src/clir.go lines 443-462). -/
def ContextBuilder.Handle {σ T : Type} (b : ContextBuilder σ T) (r : Router σ)
    (path desc : String) (h : ContextHandler σ T) : Router σ :=
  r.Handle (String.intercalate " " (b.base.pfx ++ goFields path)) desc
    (wrapLoop b.base.mws (ctxBaseHandler b.resolve h))

/-- `WithContext` (src/clir.go lines 474-479). -/
def WithContext {σ T : Type} (b : Builder σ) (resolve : Resolver σ T) :
    ContextBuilder σ T :=
  ⟨b, resolve⟩

/-- `WithChildContext` (src/clir.go lines 491-506): the derived resolver
first runs the parent resolver, fails fast on its error, and otherwise
feeds the parent value and the request to the child function. -/
def WithChildContext {σ T U : Type} (b : ContextBuilder σ T)
    (resolve : T → Request → σ → σ × Except String U) : ContextBuilder σ U :=
  ⟨b.base, fun req s =>
    match b.resolve req s with
    | (s1, .error e) => (s1, .error e)
    | (s1, .ok t) => resolve t req s1⟩

/-- Allocation-level model of the builder tree, used to check branch
isolation. A Go slice value built by the source's
`append(append([]string{}, xs...), ys...)` idiom always lives in a fresh
backing array (the inner append starts from an empty slice), so the store
holds one immutable array per allocation and a builder holds the ids of
its prefix and middleware arrays; registered routes accumulate as in
`Router`. -/
structure AStore (σ : Type) where
  strArrs : List (List String)
  mwArrs : List (List (Middleware σ))
  routes : List (Route σ)

/-- A builder at allocation level: `*Router` is the store itself, the two
slice fields are array ids. -/
structure ABuilder where
  pfxId : Nat
  mwsId : Nat

def readPfx {σ : Type} (st : AStore σ) (b : ABuilder) : List String :=
  st.strArrs.getD b.pfxId []

def readMws {σ : Type} (st : AStore σ) (b : ABuilder) : List (Middleware σ) :=
  st.mwArrs.getD b.mwsId []

/-- The copy-on-branch child of `Builder.Route` / `Builder.With`
(src/clir.go lines 351-359 and 368-374): allocate a fresh prefix array
`prefix ++ parts` and a fresh middleware array `mws ++ extra`. -/
def allocChild {σ : Type} (st : AStore σ) (b : ABuilder) (parts : List String)
    (extra : List (Middleware σ)) : ABuilder × AStore σ :=
  (⟨st.strArrs.length, st.mwArrs.length⟩,
   ⟨st.strArrs ++ [readPfx st b ++ parts], st.mwArrs ++ [readMws st b ++ extra],
    st.routes⟩)

/-- Deep embedding of a builder-tree construction program: the callback
bodies of `Route` and the code following a `With` are higher-order
(they receive the child builder). -/
inductive BProg (σ : Type) : Type 1 where
  | skip : BProg σ
  | seq : BProg σ → BProg σ → BProg σ
  | route : String → (ABuilder → BProg σ) → BProg σ
  | withMw : List (Middleware σ) → (ABuilder → BProg σ) → BProg σ
  | handle : String → String → Handler σ → BProg σ

/-- Run a builder program against the store: `route` and `withMw` allocate
the child per `allocChild` and run their body on it; `handle` registers
the wrapped handler under the joined pattern (src/clir.go lines 382-394). -/
def runProg {σ : Type} : BProg σ → ABuilder → AStore σ → AStore σ
  | .skip, _, st => st
  | .seq p q, b, st => runProg q b (runProg p b st)
  | .route path body, b, st =>
      let cs := allocChild st b (goFields path) []
      runProg (body cs.1) cs.1 cs.2
  | .withMw ms body, b, st =>
      let cs := allocChild st b [] ms
      runProg (body cs.1) cs.1 cs.2
  | .handle path desc h, b, st =>
      ⟨st.strArrs, st.mwArrs,
       st.routes ++
         [⟨parseSegments (goFields (String.intercalate " " (readPfx st b ++ goFields path))),
           wrapLoop (readMws st b) h, desc⟩]⟩

/-- Store `st1` extends `st`: every array id readable in `st` reads the
same contents in `st1` (fresh allocations only). -/
def StoreExtends {σ : Type} (st st1 : AStore σ) : Prop :=
  st.strArrs.length ≤ st1.strArrs.length ∧
  st.mwArrs.length ≤ st1.mwArrs.length ∧
  (∀ id < st.strArrs.length, st1.strArrs.getD id [] = st.strArrs.getD id []) ∧
  (∀ id < st.mwArrs.length, st1.mwArrs.getD id [] = st.mwArrs.getD id [])

/-- A builder whose array ids are live in the store. -/
def ABuilder.valid {σ : Type} (b : ABuilder) (st : AStore σ) : Prop :=
  b.pfxId < st.strArrs.length ∧ b.mwsId < st.mwArrs.length

/-- The root of `Router.Routes` (src/clir.go lines 323-329): nil prefix
and nil middleware, here two pre-allocated empty arrays. -/
def rootStore (σ : Type) : AStore σ := ⟨[[]], [[]], []⟩

def rootBuilder : ABuilder := ⟨0, 0⟩

/-- The 2-bit code `matchArgv` assigns to a segment position: `0b10` for a
literal, `0b01` for a parameter, 0 for a degenerate segment. -/
def segCode (s : Segment) : Nat :=
  if s.lit ≠ "" then 2 else if s.param ≠ "" then 1 else 0

/-- The kind of a segment as the `switch` in `matchArgv` classifies it. -/
inductive SegKind where
  | litK : SegKind
  | paramK : SegKind
  | badK : SegKind
deriving DecidableEq

def segKind (s : Segment) : SegKind :=
  if s.lit ≠ "" then .litK else if s.param ≠ "" then .paramK else .badK

/-- Whether one segment accepts one argv token: a literal wants byte
equality, a parameter accepts anything, a degenerate segment nothing. -/
def segMatch (s : Segment) (a : String) : Bool :=
  if s.lit ≠ "" then a == s.lit else s.param ≠ ""

/-- Position-by-position acceptance: the segments starting at position
`i` each accept their argv token (as the loop reads it, `argv.getD i ""`). -/
def matchFrom : List Segment → List String → Nat → Bool
  | [], _, _ => true
  | s :: ss, argv, i => segMatch s (argv.getD i "") && matchFrom ss argv (i + 1)

/-- Closed form of the rank the loop accumulates: code times
`2 ^ (2 * (32 - 1 - i))` per position, summed. -/
def rankSum : List Nat → Nat → Nat
  | [], _ => 0
  | c :: cs, i => c * 2 ^ (2 * (32 - 1 - i)) + rankSum cs (i + 1)

/-- The parameter bindings the loop performs, in position order. -/
def pBinds : List Segment → List String → Nat → List (String × String)
  | [], _, _ => []
  | s :: ss, argv, i =>
      if s.lit ≠ "" then pBinds ss argv (i + 1)
      else (s.param, argv.getD i "") :: pBinds ss argv (i + 1)

/-- Folding a binding list into a params map, later bindings overwriting. -/
def foldIns (p : Params) (l : List (String × String)) : Params :=
  l.foldl (fun m kv => m.insert kv.1 kv.2) p

/-- The rank `matchArgv` gives to the `k`-th registered route (0 when `k`
is out of range, since the default route has no segments). -/
def routeRank {σ : Type} (r : Router σ) (argv : List String) (k : Nat) : Nat :=
  (matchArgv ((r.routes.getD k (defaultRoute σ)).segments) argv).1

/-- Claim-side description (C9): the segment a single non-integer token
yields, ignoring sort hints — a token wrapped in angle brackets is a
parameter named by the interior text, anything else a literal. -/
def claimTokSeg (p : String) : Segment :=
  if p.data.head? = some '<' ∧ p.data.getLast? = some '>' then
    { param := String.mk (p.data.drop 1).dropLast }
  else
    { lit := p }

/-- A segment with its sort hint cleared, for comparing kinds and names
only. -/
def stripSort (s : Segment) : Segment := { s with sort := 0 }

/-- Claim-side description (C9): the pending sort hint after consuming a
token list, starting from `pending` — an integer token replaces it, any
other token resets it to 0. -/
def pendAfter : List String → Int → Int
  | [], pending => pending
  | p :: rest, _ =>
      match goAtoi p with
      | some n => pendAfter rest n
      | none => pendAfter rest 0

/-- The candidates the `bestMatch` scan considers: one entry per matching
route, in registration order, carrying the route index. -/
def cands {σ : Type} (argv : List String) : List (Route σ) → Nat → List Cand
  | [], _ => []
  | rt :: rest, i =>
      let mp := matchArgv rt.segments argv
      if mp.1 = 0 then cands argv rest (i + 1)
      else ⟨i, mp.1, mp.2, argv.drop rt.segments.length⟩ :: cands argv rest (i + 1)

/-- The comparison `bestMatch` applies to the running best: replace only
under strictly greater rank. -/
def pick2 (a c : Cand) : Cand := if c.rank > a.rank then c else a

/-- Test fixture: a middleware that brackets the handler with trace
entries, as in the repository's middleware-order test. -/
def traceMW (name : String) : Middleware (List String) :=
  fun next req s =>
    let r := next req (s ++ ["before-" ++ name])
    (r.1 ++ ["after-" ++ name], r.2)

/-- Test fixture: a handler that records that it ran. -/
def traceHandler : Handler (List String) := fun _ s => (s ++ ["handler"], none)

theorem segCode_le_two (s : Segment) : segCode s ≤ 2 := by
  simp only [segCode]
  split
  · exact Nat.le_refl 2
  · split
    · omega
    · omega

theorem rankSum_lt (cs : List Nat) :
    ∀ i, (∀ c ∈ cs, c < 4) → i + cs.length ≤ 32 →
    rankSum cs i < 2 ^ (2 * (32 - i)) := by
  induction cs with
  | nil =>
      intro i _ _
      simp [rankSum]
  | cons c cs ih =>
      intro i hc hi
      simp only [rankSum]
      have hlen : i + 1 + cs.length ≤ 32 := by
        simp only [List.length_cons] at hi; omega
      have h1 : rankSum cs (i + 1) < 2 ^ (2 * (32 - (i + 1))) :=
        ih (i + 1) (fun x hx => hc x (List.mem_cons_of_mem _ hx)) hlen
      have hc0 : c < 4 := hc c (List.mem_cons_self _ _)
      have e3 : 32 - 1 - i = 32 - (i + 1) := by omega
      have e2 : (2 : Nat) ^ (2 * (32 - i)) = 2 ^ (2 * (32 - (i + 1))) * 4 := by
        have e1 : 2 * (32 - i) = 2 * (32 - (i + 1)) + 2 := by omega
        rw [e1, pow_add]
        norm_num
      rw [e3, e2]
      have step1 : c * 2 ^ (2 * (32 - (i + 1))) + rankSum cs (i + 1) <
          (c + 1) * 2 ^ (2 * (32 - (i + 1))) := by
        have := Nat.add_lt_add_left h1 (c * 2 ^ (2 * (32 - (i + 1))))
        calc c * 2 ^ (2 * (32 - (i + 1))) + rankSum cs (i + 1)
            < c * 2 ^ (2 * (32 - (i + 1))) + 2 ^ (2 * (32 - (i + 1))) := this
          _ = (c + 1) * 2 ^ (2 * (32 - (i + 1))) := by ring
      have step2 : (c + 1) * 2 ^ (2 * (32 - (i + 1))) ≤
          2 ^ (2 * (32 - (i + 1))) * 4 := by
        rw [Nat.mul_comm]
        exact Nat.mul_le_mul_left _ (by omega)
      exact Nat.lt_of_lt_of_le step1 step2

theorem rankSum_append (xs ys : List Nat) :
    ∀ i, rankSum (xs ++ ys) i = rankSum xs i + rankSum ys (i + xs.length) := by
  induction xs with
  | nil => intro i; simp [rankSum]
  | cons x xs ih =>
      intro i
      simp only [List.cons_append, rankSum, List.length_cons, List.append_eq]
      rw [ih (i + 1)]
      have e : i + 1 + xs.length = i + (xs.length + 1) := by omega
      rw [e]
      ring

theorem rankSum_pos (c : Nat) (cs : List Nat) (i : Nat) (hc : 1 ≤ c) :
    0 < rankSum (c :: cs) i := by
  simp only [rankSum]
  have h2 : 0 < 2 ^ (2 * (32 - 1 - i)) := Nat.two_pow_pos _
  have h3 : 0 < c * 2 ^ (2 * (32 - 1 - i)) := Nat.mul_pos hc h2
  exact Nat.lt_of_lt_of_le h3 (Nat.le_add_right _ _)

theorem lor_eq_add_of_lt {b k : Nat} (hb : b < 2 ^ k) (a : Nat) :
    (a <<< k) ||| b = a <<< k + b := by
  rw [Nat.shiftLeft_eq, Nat.mul_comm]
  exact (Nat.mul_add_lt_is_or hb a).symm


theorem matchLoop_cons (s : Segment) (ss : List Segment) (argv : List String)
    (i rank : Nat) (p : Params) :
    matchLoop (s :: ss) argv i rank p =
      if s.lit ≠ "" then
        if argv.getD i "" ≠ s.lit then (0, Params.empty)
        else matchLoop ss argv (i + 1) (rank ||| (2 <<< (2 * (32 - 1 - i)))) p
      else if s.param ≠ "" then
        matchLoop ss argv (i + 1) (rank ||| (1 <<< (2 * (32 - 1 - i))))
          (p.insert s.param (argv.getD i ""))
      else (0, Params.empty) := rfl

theorem matchFrom_cons (s : Segment) (ss : List Segment) (argv : List String) (i : Nat) :
    matchFrom (s :: ss) argv i = (segMatch s (argv.getD i "") && matchFrom ss argv (i + 1)) :=
  rfl

theorem segMatch_lit {s : Segment} {a : String} (hl : ¬s.lit = "") :
    segMatch s a = (a == s.lit) := by
  simp only [segMatch, if_pos (hl : s.lit ≠ "")]

theorem segMatch_nonlit {s : Segment} {a : String} (hl : s.lit = "") :
    segMatch s a = decide (s.param ≠ "") := by
  simp only [segMatch, hl]
  rfl

theorem matchLoop_fail :
    ∀ (ss : List Segment) (argv : List String) (i rank : Nat) (p : Params),
    matchFrom ss argv i = false →
    matchLoop ss argv i rank p = (0, Params.empty) := by
  intro ss
  induction ss with
  | nil =>
      intro argv i rank p h
      simp [matchFrom] at h
  | cons s ss ih =>
      intro argv i rank p h
      rw [matchFrom_cons, Bool.and_eq_false_iff] at h
      rw [matchLoop_cons]
      by_cases hl : s.lit = ""
      · rw [if_neg (by simp [hl])]
        by_cases hp : s.param = ""
        · rw [if_neg (by simp [hp])]
        · rw [if_pos hp]
          rcases h with h | h
          · rw [segMatch_nonlit hl] at h
            simp at h
            exact absurd h hp
          · exact ih argv (i + 1) _ _ h
      · rw [if_pos hl]
        by_cases heq : argv.getD i "" = s.lit
        · rw [if_neg (fun hcon => hcon heq)]
          rcases h with h | h
          · rw [segMatch_lit hl, heq] at h
            simp at h
          · exact ih argv (i + 1) _ _ h
        · rw [if_pos heq]

theorem rankSum_cons (c : Nat) (cs : List Nat) (i : Nat) :
    rankSum (c :: cs) i = c * 2 ^ (2 * (32 - 1 - i)) + rankSum cs (i + 1) := rfl

theorem pBinds_cons (s : Segment) (ss : List Segment) (argv : List String) (i : Nat) :
    pBinds (s :: ss) argv i =
      if s.lit ≠ "" then pBinds ss argv (i + 1)
      else (s.param, argv.getD i "") :: pBinds ss argv (i + 1) := rfl

theorem foldIns_cons (p : Params) (kv : String × String) (l : List (String × String)) :
    foldIns p (kv :: l) = foldIns (p.insert kv.1 kv.2) l := rfl

theorem matchLoop_succ :
    ∀ (ss : List Segment) (argv : List String) (i rank : Nat) (p : Params),
    i + ss.length ≤ 32 → matchFrom ss argv i = true →
    matchLoop ss argv i rank p =
      (rank ||| rankSum (ss.map segCode) i, foldIns p (pBinds ss argv i)) := by
  intro ss
  induction ss with
  | nil =>
      intro argv i rank p _ _
      simp [matchLoop, rankSum, pBinds, foldIns]
  | cons s ss ih =>
      intro argv i rank p hle hm
      rw [matchFrom_cons, Bool.and_eq_true] at hm
      obtain ⟨h1, h2⟩ := hm
      have hlen : (i + 1) + ss.length ≤ 32 := by
        simp only [List.length_cons] at hle
        omega
      have htail : rankSum (ss.map segCode) (i + 1) < 2 ^ (2 * (32 - 1 - i)) := by
        have heq : 32 - 1 - i = 32 - (i + 1) := by omega
        rw [heq]
        refine rankSum_lt _ (i + 1) ?_ (by simpa using hlen)
        intro c hc
        simp only [List.mem_map] at hc
        obtain ⟨x, _, hx⟩ := hc
        have := segCode_le_two x
        omega
      rw [matchLoop_cons]
      by_cases hl : s.lit = ""
      · have hp : s.param ≠ "" := by
          rw [segMatch_nonlit hl] at h1
          simpa using h1
        rw [if_neg (fun hcon => hcon hl), if_pos hp]
        rw [ih argv (i + 1) _ _ hlen h2]
        rw [List.map_cons, rankSum_cons, pBinds_cons, if_neg (fun hcon => hcon hl),
          foldIns_cons]
        rw [show segCode s = 1 from by simp [segCode, hl, hp]]
        rw [Nat.lor_assoc, lor_eq_add_of_lt htail, Nat.shiftLeft_eq]
      · have heq : argv.getD i "" = s.lit := by
          rw [segMatch_lit hl] at h1
          exact eq_of_beq h1
        rw [if_pos hl, if_neg (fun hcon => hcon heq)]
        rw [ih argv (i + 1) _ _ hlen h2]
        rw [List.map_cons, rankSum_cons, pBinds_cons, if_pos hl]
        rw [show segCode s = 2 from by simp [segCode, hl]]
        rw [Nat.lor_assoc, lor_eq_add_of_lt htail, Nat.shiftLeft_eq]

theorem segCode_pos_of_segMatch {s : Segment} {a : String}
    (h : segMatch s a = true) : 1 ≤ segCode s := by
  by_cases hl : s.lit = ""
  · have hp : s.param ≠ "" := by
      rw [segMatch_nonlit hl] at h
      simpa using h
    rw [show segCode s = 1 from by simp [segCode, hl, hp]]
  · rw [show segCode s = 2 from by simp [segCode, hl]]
    omega

theorem matchArgv_succ (segs : List Segment) (argv : List String)
    (h1 : segs.length ≤ argv.length) (h2 : segs.length ≤ 32)
    (h3 : matchFrom segs argv 0 = true) :
    matchArgv segs argv =
      (rankSum (segs.map segCode) 0, foldIns Params.empty (pBinds segs argv 0)) := by
  unfold matchArgv
  rw [if_neg (by omega), if_neg (by omega)]
  rw [matchLoop_succ segs argv 0 0 Params.empty (by omega) h3, Nat.zero_or]

theorem matchArgv_ne_zero_iff (segs : List Segment) (argv : List String) :
    (matchArgv segs argv).1 ≠ 0 ↔
      (segs ≠ [] ∧ segs.length ≤ argv.length ∧ segs.length ≤ 32 ∧
        matchFrom segs argv 0 = true) := by
  constructor
  · intro h
    by_cases hlen : argv.length < segs.length
    · exfalso
      apply h
      unfold matchArgv
      rw [if_pos hlen]
    by_cases h32 : segs.length > 32
    · exfalso
      apply h
      unfold matchArgv
      rw [if_neg hlen, if_pos h32]
    by_cases hm : matchFrom segs argv 0 = true
    · refine ⟨?_, by omega, by omega, hm⟩
      intro hnil
      apply h
      subst hnil
      unfold matchArgv
      simp [matchLoop]
    · exfalso
      apply h
      unfold matchArgv
      rw [if_neg hlen, if_neg h32,
        matchLoop_fail segs argv 0 0 _ (Bool.eq_false_iff.mpr hm)]
  · rintro ⟨hnil, h1, h2, h3⟩
    rw [matchArgv_succ segs argv h1 h2 h3]
    rcases segs with _ | ⟨s, ss⟩
    · exact absurd rfl hnil
    · rw [matchFrom_cons, Bool.and_eq_true] at h3
      have hcode : 1 ≤ segCode s := segCode_pos_of_segMatch h3.1
      rw [List.map_cons]
      exact (rankSum_pos _ _ _ hcode).ne'

theorem codes_lt_four (ss : List Segment) : ∀ c ∈ ss.map segCode, c < 4 := by
  intro c hc
  simp only [List.mem_map] at hc
  obtain ⟨x, _, rfl⟩ := hc
  have := segCode_le_two x
  omega

theorem codes_pos_of_matchFrom :
    ∀ (ss : List Segment) (argv : List String) (i : Nat),
    matchFrom ss argv i = true → ∀ c ∈ ss.map segCode, 1 ≤ c := by
  intro ss
  induction ss with
  | nil =>
      intro argv i _ c hc
      simp at hc
  | cons s ss ih =>
      intro argv i hm c hc
      rw [matchFrom_cons, Bool.and_eq_true] at hm
      simp only [List.map_cons, List.mem_cons] at hc
      rcases hc with rfl | hc
      · exact segCode_pos_of_segMatch hm.1
      · exact ih argv (i + 1) hm.2 c hc

theorem rankSum_lt_of_lex (pre : List Nat) (c1 c2 : Nat) (t1 t2 : List Nat) (i : Nat)
    (hb : i + pre.length + 1 + t2.length ≤ 32)
    (ht2 : ∀ c ∈ t2, c < 4)
    (hc : c2 < c1) :
    rankSum (pre ++ c2 :: t2) i < rankSum (pre ++ c1 :: t1) i := by
  rw [rankSum_append, rankSum_append, rankSum_cons, rankSum_cons]
  have hR2 : rankSum t2 (i + pre.length + 1) <
      2 ^ (2 * (32 - 1 - (i + pre.length))) := by
    have heq : 32 - 1 - (i + pre.length) = 32 - (i + pre.length + 1) := by omega
    rw [heq]
    exact rankSum_lt t2 (i + pre.length + 1) ht2 (by omega)
  have key : c2 * 2 ^ (2 * (32 - 1 - (i + pre.length))) + rankSum t2 (i + pre.length + 1) <
      c1 * 2 ^ (2 * (32 - 1 - (i + pre.length))) + rankSum t1 (i + pre.length + 1) := by
    calc c2 * 2 ^ (2 * (32 - 1 - (i + pre.length))) + rankSum t2 (i + pre.length + 1)
        < c2 * 2 ^ (2 * (32 - 1 - (i + pre.length))) +
            2 ^ (2 * (32 - 1 - (i + pre.length))) := Nat.add_lt_add_left hR2 _
      _ = (c2 + 1) * 2 ^ (2 * (32 - 1 - (i + pre.length))) := by ring
      _ ≤ c1 * 2 ^ (2 * (32 - 1 - (i + pre.length))) :=
          Nat.mul_le_mul_right _ (by omega)
      _ ≤ c1 * 2 ^ (2 * (32 - 1 - (i + pre.length))) + rankSum t1 (i + pre.length + 1) :=
          Nat.le_add_right _ _
  exact Nat.add_lt_add_left key _

theorem rankSum_extend_gt (ks ext : List Nat) (hne : ext ≠ [])
    (hpos : ∀ c ∈ ext, 1 ≤ c) :
    rankSum ks 0 < rankSum (ks ++ ext) 0 := by
  rw [rankSum_append]
  have hp : 0 < rankSum ext (0 + ks.length) := by
    rcases ext with _ | ⟨c, cs⟩
    · exact absurd rfl hne
    · exact rankSum_pos c cs _ (hpos c (List.mem_cons_self _ _))
  omega

theorem segCode_eq_of_kind_eq {s t : Segment} (h : segKind s = segKind t) :
    segCode s = segCode t := by
  unfold segKind at h
  unfold segCode
  by_cases hs : s.lit = "" <;> by_cases ht : t.lit = "" <;>
    by_cases hps : s.param = "" <;> by_cases hpt : t.param = "" <;>
      simp [hs, ht, hps, hpt] at h ⊢

theorem map_segCode_eq_of_kinds :
    ∀ (l1 l2 : List Segment), l1.length = l2.length →
    (∀ k, k < l1.length → segKind (l1.getD k seg0) = segKind (l2.getD k seg0)) →
    l1.map segCode = l2.map segCode := by
  intro l1
  induction l1 with
  | nil =>
      intro l2 hlen _
      cases l2
      · rfl
      · simp at hlen
  | cons s l1 ih =>
      intro l2 hlen h
      cases l2 with
      | nil => simp at hlen
      | cons t l2 =>
          simp only [List.map_cons, List.cons.injEq]
          constructor
          · exact segCode_eq_of_kind_eq (by simpa using h 0 (by simp))
          · refine ih l2 (by simpa using hlen) ?_
            intro k hk
            have := h (k + 1) (by simp only [List.length_cons]; omega)
            simpa using this

theorem matchLoop_params_frame :
    ∀ (ss : List Segment) (argv : List String) (i rank : Nat) (p : Params) (q : String),
    matchFrom ss argv i = true →
    (∀ s ∈ ss, s.lit = "" → s.param ≠ q) →
    (matchLoop ss argv i rank p).2 q = p q := by
  intro ss
  induction ss with
  | nil =>
      intro argv i rank p q _ _
      rfl
  | cons s ss ih =>
      intro argv i rank p q hm hfr
      rw [matchFrom_cons, Bool.and_eq_true] at hm
      rw [matchLoop_cons]
      by_cases hl : s.lit = ""
      · have hp : s.param ≠ "" := by
          have h1 := hm.1
          rw [segMatch_nonlit hl] at h1
          simpa using h1
        rw [if_neg (fun hcon => hcon hl), if_pos hp]
        rw [ih argv (i + 1) _ _ q hm.2 (fun x hx => hfr x (List.mem_cons_of_mem _ hx))]
        have hne : s.param ≠ q := hfr s (List.mem_cons_self _ _) hl
        simp only [Params.insert]
        rw [if_neg (fun hcon => hne hcon.symm)]
      · have heq : argv.getD i "" = s.lit := by
          have h1 := hm.1
          rw [segMatch_lit hl] at h1
          exact eq_of_beq h1
        rw [if_pos hl, if_neg (fun hcon => hcon heq)]
        exact ih argv (i + 1) _ _ q hm.2 (fun x hx => hfr x (List.mem_cons_of_mem _ hx))

theorem matchLoop_param_last :
    ∀ (ss : List Segment) (argv : List String) (i rank : Nat) (p : Params) (k : Nat),
    matchFrom ss argv i = true →
    k < ss.length →
    (ss.getD k seg0).lit = "" →
    (∀ s ∈ ss.drop (k + 1), s.lit = "" → s.param ≠ (ss.getD k seg0).param) →
    (matchLoop ss argv i rank p).2 (ss.getD k seg0).param =
      some (argv.getD (i + k) "") := by
  intro ss
  induction ss with
  | nil =>
      intro argv i rank p k _ hk
      simp at hk
  | cons s ss ih =>
      intro argv i rank p k hm hk hlit hlater
      rw [matchFrom_cons, Bool.and_eq_true] at hm
      cases k with
      | zero =>
          simp only [List.getD_cons_zero] at hlit hlater ⊢
          have hp : s.param ≠ "" := by
            have h1 := hm.1
            rw [segMatch_nonlit hlit] at h1
            simpa using h1
          rw [matchLoop_cons, if_neg (fun hcon => hcon hlit), if_pos hp]
          rw [matchLoop_params_frame ss argv (i + 1) _ _ _ hm.2 (by simpa using hlater)]
          simp [Params.insert]
      | succ k =>
          simp only [List.getD_cons_succ] at hlit hlater ⊢
          rw [matchLoop_cons]
          by_cases hl : s.lit = ""
          · have hp : s.param ≠ "" := by
              have h1 := hm.1
              rw [segMatch_nonlit hl] at h1
              simpa using h1
            rw [if_neg (fun hcon => hcon hl), if_pos hp]
            have hres := ih argv (i + 1) (rank ||| (1 <<< (2 * (32 - 1 - i))))
              (p.insert s.param (argv.getD i "")) k hm.2
              (by simp only [List.length_cons] at hk; omega) hlit
              (by simpa using hlater)
            have e : i + 1 + k = i + (k + 1) := by omega
            rw [e] at hres
            exact hres
          · have heq : argv.getD i "" = s.lit := by
              have h1 := hm.1
              rw [segMatch_lit hl] at h1
              exact eq_of_beq h1
            rw [if_pos hl, if_neg (fun hcon => hcon heq)]
            have hres := ih argv (i + 1) (rank ||| (2 <<< (2 * (32 - 1 - i)))) p k hm.2
              (by simp only [List.length_cons] at hk; omega) hlit
              (by simpa using hlater)
            have e : i + 1 + k = i + (k + 1) := by omega
            rw [e] at hres
            exact hres

theorem bestLoop_cons_some {σ : Type} (argv : List String) (rt : Route σ)
    (rest : List (Route σ)) (i : Nat) (b : Cand) :
    bestLoop argv (rt :: rest) i (some b) =
      if (matchArgv rt.segments argv).1 = 0 then bestLoop argv rest (i + 1) (some b)
      else if (matchArgv rt.segments argv).1 > b.rank then
        bestLoop argv rest (i + 1)
          (some ⟨i, (matchArgv rt.segments argv).1, (matchArgv rt.segments argv).2,
            argv.drop rt.segments.length⟩)
      else bestLoop argv rest (i + 1) (some b) := rfl

theorem bestLoop_cons_none {σ : Type} (argv : List String) (rt : Route σ)
    (rest : List (Route σ)) (i : Nat) :
    bestLoop argv (rt :: rest) i none =
      if (matchArgv rt.segments argv).1 = 0 then bestLoop argv rest (i + 1) none
      else bestLoop argv rest (i + 1)
        (some ⟨i, (matchArgv rt.segments argv).1, (matchArgv rt.segments argv).2,
          argv.drop rt.segments.length⟩) := rfl

theorem cands_cons {σ : Type} (argv : List String) (rt : Route σ)
    (rest : List (Route σ)) (i : Nat) :
    cands argv (rt :: rest) i =
      if (matchArgv rt.segments argv).1 = 0 then cands argv rest (i + 1)
      else ⟨i, (matchArgv rt.segments argv).1, (matchArgv rt.segments argv).2,
        argv.drop rt.segments.length⟩ :: cands argv rest (i + 1) := rfl

theorem bestLoop_some {σ : Type} (argv : List String) :
    ∀ (rs : List (Route σ)) (i : Nat) (b : Cand),
    bestLoop argv rs i (some b) = some ((cands argv rs i).foldl pick2 b) := by
  intro rs
  induction rs with
  | nil => intro i b; rfl
  | cons rt rest ih =>
      intro i b
      rw [bestLoop_cons_some, cands_cons]
      by_cases h : (matchArgv rt.segments argv).1 = 0
      · rw [if_pos h, if_pos h, ih]
      · rw [if_neg h, if_neg h, List.foldl_cons]
        by_cases hgt : (matchArgv rt.segments argv).1 > b.rank
        · rw [if_pos hgt, ih]
          congr 1
          simp [pick2, hgt]
        · rw [if_neg hgt, ih]
          congr 1
          simp [pick2, hgt]

theorem bestLoop_none {σ : Type} (argv : List String) :
    ∀ (rs : List (Route σ)) (i : Nat),
    bestLoop argv rs i none =
      match cands argv rs i with
      | [] => none
      | c :: cs => some (cs.foldl pick2 c) := by
  intro rs
  induction rs with
  | nil => intro i; rfl
  | cons rt rest ih =>
      intro i
      rw [bestLoop_cons_none, cands_cons]
      by_cases h : (matchArgv rt.segments argv).1 = 0
      · rw [if_pos h, if_pos h, ih]
      · rw [if_neg h, if_neg h, bestLoop_some]

theorem foldl_pick2_spec :
    ∀ (cs : List Cand) (a : Cand),
    (∀ c ∈ cs, a.idx < c.idx) →
    List.Pairwise (fun x y => x.idx < y.idx) cs →
    (cs.foldl pick2 a = a ∨ (cs.foldl pick2 a ∈ cs ∧ a.rank < (cs.foldl pick2 a).rank)) ∧
    a.rank ≤ (cs.foldl pick2 a).rank ∧
    (∀ c ∈ cs, c.rank ≤ (cs.foldl pick2 a).rank) ∧
    (∀ c ∈ cs, c.idx < (cs.foldl pick2 a).idx → c.rank < (cs.foldl pick2 a).rank) ∧
    a.idx ≤ (cs.foldl pick2 a).idx := by
  intro cs
  induction cs with
  | nil =>
      intro a _ _
      simp
  | cons c cs ih =>
      intro a hgt hpw
      rw [List.foldl_cons]
      rcases List.pairwise_cons.mp hpw with ⟨hc, hpw2⟩
      by_cases h : c.rank > a.rank
      · have hpick : pick2 a c = c := by simp [pick2, h]
        rw [hpick]
        obtain ⟨h1, h2, h3, h4, h5⟩ := ih c hc hpw2
        refine ⟨?_, ?_, ?_, ?_, ?_⟩
        · rcases h1 with h1 | ⟨hmem, hlt⟩
          · right
            refine ⟨by rw [h1]; exact List.mem_cons_self _ _, by rw [h1]; exact h⟩
          · right
            exact ⟨List.mem_cons_of_mem _ hmem, lt_trans h hlt⟩
        · exact le_of_lt (lt_of_lt_of_le h h2)
        · intro x hx
          rcases List.mem_cons.mp hx with rfl | hx
          · exact h2
          · exact h3 x hx
        · intro x hx hidx
          rcases List.mem_cons.mp hx with rfl | hx
          · rcases h1 with h1 | ⟨_, hlt⟩
            · rw [h1] at hidx
              exact absurd hidx (lt_irrefl _)
            · exact hlt
          · exact h4 x hx hidx
        · have := hgt c (List.mem_cons_self _ _)
          omega
      · have hpick : pick2 a c = a := by simp [pick2, h]
        rw [hpick]
        have hgta : ∀ x ∈ cs, a.idx < x.idx :=
          fun x hx => hgt x (List.mem_cons_of_mem _ hx)
        obtain ⟨h1, h2, h3, h4, h5⟩ := ih a hgta hpw2
        refine ⟨?_, h2, ?_, ?_, h5⟩
        · rcases h1 with h1 | ⟨hmem, hlt⟩
          · exact Or.inl h1
          · exact Or.inr ⟨List.mem_cons_of_mem _ hmem, hlt⟩
        · intro x hx
          rcases List.mem_cons.mp hx with rfl | hx
          · exact le_trans (Nat.le_of_not_lt h) h2
          · exact h3 x hx
        · intro x hx hidx
          rcases List.mem_cons.mp hx with rfl | hx
          · rcases h1 with h1 | ⟨_, hlt⟩
            · rw [h1] at hidx
              have := hgt x (List.mem_cons_self _ _)
              omega
            · exact lt_of_le_of_lt (Nat.le_of_not_lt h) hlt
          · exact h4 x hx hidx

theorem cands_idx_ge {σ : Type} (argv : List String) :
    ∀ (rs : List (Route σ)) (i : Nat), ∀ c ∈ cands argv rs i, i ≤ c.idx := by
  intro rs
  induction rs with
  | nil =>
      intro i c hc
      simp [cands] at hc
  | cons rt rest ih =>
      intro i c hc
      rw [cands_cons] at hc
      by_cases h : (matchArgv rt.segments argv).1 = 0
      · rw [if_pos h] at hc
        have := ih (i + 1) c hc
        omega
      · rw [if_neg h] at hc
        rcases List.mem_cons.mp hc with rfl | hc
        · exact Nat.le_refl i
        · have := ih (i + 1) c hc
          omega

theorem cands_pairwise {σ : Type} (argv : List String) :
    ∀ (rs : List (Route σ)) (i : Nat),
    List.Pairwise (fun x y => x.idx < y.idx) (cands argv rs i) := by
  intro rs
  induction rs with
  | nil =>
      intro i
      simp [cands]
  | cons rt rest ih =>
      intro i
      rw [cands_cons]
      by_cases h : (matchArgv rt.segments argv).1 = 0
      · rw [if_pos h]
        exact ih (i + 1)
      · rw [if_neg h]
        refine List.pairwise_cons.mpr ⟨?_, ih (i + 1)⟩
        intro c hc
        have := cands_idx_ge argv rest (i + 1) c hc
        show i < c.idx
        omega

theorem cands_mem_iff {σ : Type} (argv : List String) :
    ∀ (rs : List (Route σ)) (i : Nat) (c : Cand),
    c ∈ cands argv rs i ↔
      ∃ k, k < rs.length ∧
        (matchArgv (rs.getD k (defaultRoute σ)).segments argv).1 ≠ 0 ∧
        c = ⟨i + k, (matchArgv (rs.getD k (defaultRoute σ)).segments argv).1,
          (matchArgv (rs.getD k (defaultRoute σ)).segments argv).2,
          argv.drop (rs.getD k (defaultRoute σ)).segments.length⟩ := by
  intro rs
  induction rs with
  | nil =>
      intro i c
      simp [cands]
  | cons rt rest ih =>
      intro i c
      rw [cands_cons]
      constructor
      · intro hc
        by_cases h : (matchArgv rt.segments argv).1 = 0
        · rw [if_pos h] at hc
          obtain ⟨k, hk, hrk, hc⟩ := (ih (i + 1) c).mp hc
          refine ⟨k + 1, by simp only [List.length_cons]; omega, ?_, ?_⟩
          · simpa using hrk
          · have e : i + 1 + k = i + (k + 1) := by omega
            rw [e] at hc
            simpa using hc
        · rw [if_neg h] at hc
          rcases List.mem_cons.mp hc with rfl | hc
          · exact ⟨0, by simp, by simpa using h, by simp⟩
          · obtain ⟨k, hk, hrk, hc⟩ := (ih (i + 1) c).mp hc
            refine ⟨k + 1, by simp only [List.length_cons]; omega, ?_, ?_⟩
            · simpa using hrk
            · have e : i + 1 + k = i + (k + 1) := by omega
              rw [e] at hc
              simpa using hc
      · rintro ⟨k, hk, hrk, rfl⟩
        cases k with
        | zero =>
            simp only [List.getD_cons_zero] at hrk ⊢
            rw [if_neg hrk]
            simp
        | succ k =>
            simp only [List.getD_cons_succ] at hrk ⊢
            have hmem : (⟨i + 1 + k,
                (matchArgv (rest.getD k (defaultRoute σ)).segments argv).1,
                (matchArgv (rest.getD k (defaultRoute σ)).segments argv).2,
                argv.drop (rest.getD k (defaultRoute σ)).segments.length⟩ : Cand) ∈
                cands argv rest (i + 1) := by
              refine (ih (i + 1) _).mpr ⟨k, ?_, hrk, rfl⟩
              simp only [List.length_cons] at hk
              omega
            have e : i + 1 + k = i + (k + 1) := by omega
            rw [e] at hmem
            by_cases h : (matchArgv rt.segments argv).1 = 0
            · rw [if_pos h]
              exact hmem
            · rw [if_neg h]
              exact List.mem_cons_of_mem _ hmem

theorem cands_eq_nil_iff {σ : Type} (argv : List String) (rs : List (Route σ)) (i : Nat) :
    cands argv rs i = [] ↔
      ∀ k, k < rs.length →
        (matchArgv (rs.getD k (defaultRoute σ)).segments argv).1 = 0 := by
  constructor
  · intro h k hk
    by_contra hne
    have hmem := (cands_mem_iff argv rs i _).mpr ⟨k, hk, hne, rfl⟩
    rw [h] at hmem
    simp at hmem
  · intro h
    rcases hE : cands argv rs i with _ | ⟨c, cs⟩
    · rfl
    · have hmem : c ∈ cands argv rs i := by
        rw [hE]
        exact List.mem_cons_self _ _
      obtain ⟨k, hk, hne, _⟩ := (cands_mem_iff argv rs i c).mp hmem
      exact absurd (h k hk) hne

theorem bestMatch_none_iff {σ : Type} (r : Router σ) (argv : List String) :
    r.bestMatch argv = none ↔ cands argv r.routes 0 = [] := by
  unfold Router.bestMatch
  rw [bestLoop_none]
  rcases hE : cands argv r.routes 0 with _ | ⟨c, cs⟩ <;> simp

theorem bestMatch_some_spec {σ : Type} (r : Router σ) (argv : List String)
    (hne : cands argv r.routes 0 ≠ []) :
    ∃ b : Cand, b ∈ cands argv r.routes 0 ∧
      r.bestMatch argv = some (b.idx, ⟨argv, b.params, b.extra⟩) ∧
      (∀ c ∈ cands argv r.routes 0, c.rank ≤ b.rank) ∧
      (∀ c ∈ cands argv r.routes 0, c.idx < b.idx → c.rank < b.rank) := by
  rcases hE : cands argv r.routes 0 with _ | ⟨c, cs⟩
  · exact absurd hE hne
  · have hpw := cands_pairwise argv r.routes 0
    rw [hE] at hpw
    rcases List.pairwise_cons.mp hpw with ⟨hc, hpw2⟩
    obtain ⟨h1, h2, h3, h4, h5⟩ := foldl_pick2_spec cs c hc hpw2
    refine ⟨cs.foldl pick2 c, ?_, ?_, ?_, ?_⟩
    · rcases h1 with h1 | ⟨hm, _⟩
      · rw [h1]
        exact List.mem_cons_self _ _
      · exact List.mem_cons_of_mem _ hm
    · unfold Router.bestMatch
      rw [bestLoop_none, hE]
    · intro x hx
      rcases List.mem_cons.mp hx with rfl | hx
      · exact h2
      · exact h3 x hx
    · intro x hx hidx
      rcases List.mem_cons.mp hx with rfl | hx
      · rcases h1 with h1 | ⟨_, hlt⟩
        · rw [h1] at hidx
          exact absurd hidx (lt_irrefl _)
        · exact hlt
      · exact h4 x hx hidx

theorem parseSegLoop_cons (p : String) (rest : List String) (pending : Int) :
    parseSegLoop (p :: rest) pending =
      match goAtoi p with
      | some n => parseSegLoop rest n
      | none =>
          (if p.data.head? = some '<' ∧ p.data.getLast? = some '>' then
            ({ param := String.mk (p.data.drop 1).dropLast, sort := pending } : Segment)
          else { lit := p, sort := pending }) :: parseSegLoop rest 0 := rfl

theorem pendAfter_cons (p : String) (rest : List String) (pending : Int) :
    pendAfter (p :: rest) pending =
      match goAtoi p with
      | some n => pendAfter rest n
      | none => pendAfter rest 0 := rfl

theorem parseSegLoop_append (xs ys : List String) :
    ∀ pending, parseSegLoop (xs ++ ys) pending =
      parseSegLoop xs pending ++ parseSegLoop ys (pendAfter xs pending) := by
  induction xs with
  | nil => intro pending; rfl
  | cons p xs ih =>
      intro pending
      rw [List.cons_append, parseSegLoop_cons, parseSegLoop_cons, pendAfter_cons]
      cases hA : goAtoi p with
      | some n => exact ih n
      | none =>
          rw [List.cons_append]
          exact congrArg _ (ih 0)

theorem pendAfter_append (xs ys : List String) :
    ∀ pending, pendAfter (xs ++ ys) pending = pendAfter ys (pendAfter xs pending) := by
  induction xs with
  | nil => intro pending; rfl
  | cons p xs ih =>
      intro pending
      rw [List.cons_append, pendAfter_cons, pendAfter_cons]
      cases hA : goAtoi p with
      | some n => exact ih n
      | none => exact ih 0

theorem parseSegLoop_allInt :
    ∀ (l : List String), (∀ p ∈ l, (goAtoi p).isSome) →
    ∀ pending, parseSegLoop l pending = [] := by
  intro l
  induction l with
  | nil => intro _ pending; rfl
  | cons p rest ih =>
      intro hall pending
      rw [parseSegLoop_cons]
      cases hA : goAtoi p with
      | some n => exact ih (fun q hq => hall q (List.mem_cons_of_mem _ hq)) n
      | none =>
          have := hall p (List.mem_cons_self _ _)
          rw [hA] at this
          simp at this

theorem parseSegLoop_stripSort :
    ∀ (l : List String) (pending : Int),
    (parseSegLoop l pending).map stripSort =
      (l.filter (fun p => (goAtoi p).isNone)).map claimTokSeg := by
  intro l
  induction l with
  | nil => intro pending; rfl
  | cons p rest ih =>
      intro pending
      rw [parseSegLoop_cons, List.filter_cons]
      cases hA : goAtoi p with
      | some n =>
          simp only [hA, Option.isNone_some]
          rw [if_neg (by simp)]
          exact ih n
      | none =>
          by_cases hbr : p.data.head? = some '<' ∧ p.data.getLast? = some '>'
          · rw [if_pos hbr, List.map_cons, ih 0]
            have hcs : claimTokSeg p =
                { param := String.mk (p.data.drop 1).dropLast } := by
              simp [claimTokSeg, hbr]
            simp [hA, stripSort, hcs]
          · rw [if_neg hbr, List.map_cons, ih 0]
            have hcs : claimTokSeg p = { lit := p } := by
              simp [claimTokSeg, hbr]
            simp [hA, stripSort, hcs]

theorem matchLoop_sort_blind (g : Segment → Int) :
    ∀ (ss : List Segment) (argv : List String) (i rank : Nat) (p : Params),
    matchLoop (ss.map (fun s => { s with sort := g s })) argv i rank p =
      matchLoop ss argv i rank p := by
  intro ss
  induction ss with
  | nil => intro argv i rank p; rfl
  | cons s ss ih =>
      intro argv i rank p
      rw [List.map_cons, matchLoop_cons, matchLoop_cons]
      dsimp only
      split_ifs <;> first | rfl | exact ih argv (i + 1) _ _

theorem matchArgv_sort_blind (segs : List Segment) (argv : List String)
    (g : Segment → Int) :
    matchArgv (segs.map (fun s => { s with sort := g s })) argv =
      matchArgv segs argv := by
  unfold matchArgv
  simp only [List.length_map]
  by_cases h1 : argv.length < segs.length
  · rw [if_pos h1, if_pos h1]
  · rw [if_neg h1, if_neg h1]
    by_cases h2 : segs.length > 32
    · rw [if_pos h2, if_pos h2]
    · rw [if_neg h2, if_neg h2]
      exact matchLoop_sort_blind g segs argv 0 0 Params.empty

theorem storeExtends_refl {σ : Type} (st : AStore σ) : StoreExtends st st :=
  ⟨Nat.le_refl _, Nat.le_refl _, fun _ _ => rfl, fun _ _ => rfl⟩

theorem storeExtends_trans {σ : Type} {s1 s2 s3 : AStore σ}
    (h12 : StoreExtends s1 s2) (h23 : StoreExtends s2 s3) : StoreExtends s1 s3 := by
  obtain ⟨a1, b1, c1, d1⟩ := h12
  obtain ⟨a2, b2, c2, d2⟩ := h23
  exact ⟨Nat.le_trans a1 a2, Nat.le_trans b1 b2,
    fun j hj => (c2 j (Nat.lt_of_lt_of_le hj a1)).trans (c1 j hj),
    fun j hj => (d2 j (Nat.lt_of_lt_of_le hj b1)).trans (d1 j hj)⟩

theorem allocChild_extends {σ : Type} (st : AStore σ) (b : ABuilder)
    (parts : List String) (extra : List (Middleware σ)) :
    StoreExtends st (allocChild st b parts extra).2 := by
  refine ⟨?_, ?_, ?_, ?_⟩
  · simp [allocChild]
  · simp [allocChild]
  · intro j hj
    exact List.getD_append _ _ _ _ hj
  · intro j hj
    exact List.getD_append _ _ _ _ hj

theorem runProg_extends {σ : Type} :
    ∀ (p : BProg σ) (b : ABuilder) (st : AStore σ), StoreExtends st (runProg p b st) := by
  intro p
  induction p with
  | skip =>
      intro b st
      exact storeExtends_refl st
  | seq p q ihp ihq =>
      intro b st
      exact storeExtends_trans (ihp b st) (ihq b _)
  | route path body ih =>
      intro b st
      exact storeExtends_trans (allocChild_extends st b (goFields path) []) (ih _ _ _)
  | withMw ms body ih =>
      intro b st
      exact storeExtends_trans (allocChild_extends st b [] ms) (ih _ _ _)
  | handle path desc h =>
      intro b st
      exact ⟨Nat.le_refl _, Nat.le_refl _, fun _ _ => rfl, fun _ _ => rfl⟩

theorem readPfx_of_extends {σ : Type} {st st1 : AStore σ} {b : ABuilder}
    (hv : b.valid st) (he : StoreExtends st st1) : readPfx st1 b = readPfx st b :=
  he.2.2.1 b.pfxId hv.1

theorem readMws_of_extends {σ : Type} {st st1 : AStore σ} {b : ABuilder}
    (hv : b.valid st) (he : StoreExtends st st1) : readMws st1 b = readMws st b :=
  he.2.2.2 b.mwsId hv.2

theorem valid_of_extends {σ : Type} {st st1 : AStore σ} {b : ABuilder}
    (hv : b.valid st) (he : StoreExtends st st1) : b.valid st1 :=
  ⟨Nat.lt_of_lt_of_le hv.1 he.1, Nat.lt_of_lt_of_le hv.2 he.2.1⟩

theorem allocChild_child_valid {σ : Type} (st : AStore σ) (b : ABuilder)
    (parts : List String) (extra : List (Middleware σ)) :
    (allocChild st b parts extra).1.valid (allocChild st b parts extra).2 := by
  constructor
  · simp [allocChild]
  · simp [allocChild]

theorem readPfx_allocChild {σ : Type} (st : AStore σ) (b : ABuilder)
    (parts : List String) (extra : List (Middleware σ)) :
    readPfx (allocChild st b parts extra).2 (allocChild st b parts extra).1 =
      readPfx st b ++ parts := by
  simp only [allocChild, readPfx, List.getD_eq_getElem?_getD, List.getElem?_concat_length]
  rfl

theorem readMws_allocChild {σ : Type} (st : AStore σ) (b : ABuilder)
    (parts : List String) (extra : List (Middleware σ)) :
    readMws (allocChild st b parts extra).2 (allocChild st b parts extra).1 =
      readMws st b ++ extra := by
  simp only [allocChild, readMws, List.getD_eq_getElem?_getD, List.getElem?_concat_length]
  rfl

theorem wrapLoop_eq_foldr {σ : Type} (mws : List (Middleware σ)) (h : Handler σ) :
    wrapLoop mws h = mws.foldr (fun m k => m k) h := by
  induction mws with
  | nil => rfl
  | cons m rest ih => simp [wrapLoop, ih]

/-- C1 counterexample: routes `"a b <c>"` (3 segments) and
`"a <b> <c> <d>"` (4 segments) both fully match `["a", "b", "x", "y"]`,
yet the longer route gets the strictly LOWER rank: the 2-bit codes are
placed most-significant-first, so the literal at position 1 of the
shorter route outweighs everything after it. This refutes the claim that
a fully-matching route with more segments always ranks strictly higher,
for arbitrary combinations of literal and parameter segments. (The
repository's ranking-matrix test pins exactly this pair, expecting
`"a b <c>"` to win.) -/
theorem c1_counterexample :
    (matchArgv [litSeg "a", litSeg "b", paramSeg "c"] ["a", "b", "x", "y"]).1 ≠ 0 ∧
    (matchArgv [litSeg "a", paramSeg "b", paramSeg "c", paramSeg "d"]
      ["a", "b", "x", "y"]).1 ≠ 0 ∧
    (matchArgv [litSeg "a", paramSeg "b", paramSeg "c", paramSeg "d"]
        ["a", "b", "x", "y"]).1 <
      (matchArgv [litSeg "a", litSeg "b", paramSeg "c"] ["a", "b", "x", "y"]).1 := by
  refine ⟨by decide, by decide, by decide⟩

/-- C1 (amended): for two routes that both fully match argv (nonzero
`matchArgv` rank), if the two routes additionally agree in segment kind
(literal vs parameter) at every position of the shorter route, then the
route with more segments gets the strictly higher numeric rank. -/
theorem c1_amended (s1 s2 : List Segment) (argv : List String)
    (hlen : s1.length < s2.length)
    (hkinds : ∀ k, k < s1.length → segKind (s2.getD k seg0) = segKind (s1.getD k seg0))
    (hm1 : (matchArgv s1 argv).1 ≠ 0) (hm2 : (matchArgv s2 argv).1 ≠ 0) :
    (matchArgv s1 argv).1 < (matchArgv s2 argv).1 := by
  obtain ⟨hne1, hl1, h321, hf1⟩ := (matchArgv_ne_zero_iff s1 argv).mp hm1
  obtain ⟨hne2, hl2, h322, hf2⟩ := (matchArgv_ne_zero_iff s2 argv).mp hm2
  rw [matchArgv_succ s1 argv hl1 h321 hf1, matchArgv_succ s2 argv hl2 h322 hf2]
  show rankSum (s1.map segCode) 0 < rankSum (s2.map segCode) 0
  have htake : (s2.take s1.length).map segCode = s1.map segCode := by
    apply map_segCode_eq_of_kinds
    · rw [List.length_take]
      omega
    · intro k hk
      rw [List.length_take] at hk
      have hk1 : k < s1.length := by omega
      have hgd : (s2.take s1.length).getD k seg0 = s2.getD k seg0 := by
        rw [List.getD_eq_getElem?_getD, List.getD_eq_getElem?_getD,
          List.getElem?_take_of_lt hk1]
      rw [hgd]
      exact hkinds k hk1
  have hstep : rankSum (s1.map segCode) 0 <
      rankSum (s1.map segCode ++ (s2.drop s1.length).map segCode) 0 := by
    apply rankSum_extend_gt
    · intro hcon
      have : (s2.drop s1.length).length = 0 := by
        rw [← List.length_map (s2.drop s1.length) segCode, hcon]
        rfl
      rw [List.length_drop] at this
      omega
    · intro c hc
      have hmem : c ∈ s2.map segCode := by
        rw [List.map_drop] at hc
        exact List.mem_of_mem_drop hc
      exact codes_pos_of_matchFrom s2 argv 0 hf2 c hmem
  have hglue : s1.map segCode ++ (s2.drop s1.length).map segCode = s2.map segCode := by
    rw [← htake, ← List.map_append, List.take_append_drop]
  rw [hglue] at hstep
  exact hstep

/-- C1 amended-claim witness: `"a"` is a kind-prefix of `"a b"` and both
match `["a", "b"]`, so the longer route ranks strictly higher. -/
theorem c1_witness :
    (matchArgv [litSeg "a"] ["a", "b"]).1 <
      (matchArgv [litSeg "a", litSeg "b"] ["a", "b"]).1 :=
  c1_amended [litSeg "a"] [litSeg "a", litSeg "b"] ["a", "b"]
    (by decide) (by decide) (by decide) (by decide)

theorem segCode_of_litK {s : Segment} (h : segKind s = .litK) : segCode s = 2 := by
  unfold segKind at h
  by_cases hl : s.lit = ""
  · rw [if_neg (fun hcon => hcon hl)] at h
    by_cases hp : s.param = ""
    · rw [if_neg (fun hcon => hcon hp)] at h
      exact SegKind.noConfusion h
    · rw [if_pos hp] at h
      exact SegKind.noConfusion h
  · simp [segCode, hl]

theorem segCode_of_paramK {s : Segment} (h : segKind s = .paramK) : segCode s = 1 := by
  unfold segKind at h
  by_cases hl : s.lit = ""
  · by_cases hp : s.param = ""
    · rw [if_neg (fun hcon => hcon hl), if_neg (fun hcon => hcon hp)] at h
      exact SegKind.noConfusion h
    · simp [segCode, hl, hp]
  · rw [if_pos hl] at h
    exact SegKind.noConfusion h

theorem list_decomp_at {α : Type} (l : List α) (j : Nat) (d : α) (hj : j < l.length) :
    l = l.take j ++ l.getD j d :: l.drop (j + 1) := by
  conv_lhs => rw [← List.take_append_drop j l]
  congr 1
  rw [List.getD_eq_getElem?_getD, List.getElem?_eq_getElem hj]
  exact List.drop_eq_getElem_cons hj

theorem bestMatch_two {σ : Type} (rt1 rt2 : Route σ) (argv : List String)
    (hm1 : (matchArgv rt1.segments argv).1 ≠ 0)
    (hm2 : (matchArgv rt2.segments argv).1 ≠ 0)
    (hgt : (matchArgv rt2.segments argv).1 < (matchArgv rt1.segments argv).1) :
    ((Router.mk [rt1, rt2]).bestMatch argv).map Prod.fst = some 0 ∧
    ((Router.mk [rt2, rt1]).bestMatch argv).map Prod.fst = some 1 := by
  constructor
  · unfold Router.bestMatch
    rw [bestLoop_cons_none, if_neg hm1, bestLoop_cons_some, if_neg hm2]
    rw [if_neg (by dsimp only; omega)]
    rfl
  · unfold Router.bestMatch
    rw [bestLoop_cons_none, if_neg hm2, bestLoop_cons_some, if_neg hm1]
    rw [if_pos (by dsimp only; omega)]
    rfl

/-- C2: for two routes that both match argv with the same number of
segments (at most 32), if at position `j` the first route has a literal
segment and the second a parameter segment while the segment kinds agree
at every earlier position, then the literal route's rank is strictly
higher — regardless of the segment kinds at all later positions — and a
router holding exactly these two routes dispatches to the literal route
in either registration order. -/
theorem c2_literal_beats_param {σ : Type} (s1 s2 : List Segment) (argv : List String)
    (j : Nat)
    (hlen : s1.length = s2.length)
    (hm1 : (matchArgv s1 argv).1 ≠ 0) (hm2 : (matchArgv s2 argv).1 ≠ 0)
    (hj : j < s1.length)
    (hpre : ∀ k, k < j → segKind (s1.getD k seg0) = segKind (s2.getD k seg0))
    (hk1 : segKind (s1.getD j seg0) = .litK)
    (hk2 : segKind (s2.getD j seg0) = .paramK) :
    (matchArgv s2 argv).1 < (matchArgv s1 argv).1 ∧
    (∀ (h1 h2 : Handler σ) (d1 d2 : String),
      ((Router.mk [⟨s1, h1, d1⟩, ⟨s2, h2, d2⟩]).bestMatch argv).map Prod.fst = some 0 ∧
      ((Router.mk [⟨s2, h2, d2⟩, ⟨s1, h1, d1⟩]).bestMatch argv).map Prod.fst = some 1) := by
  obtain ⟨hne1, hl1, h321, hf1⟩ := (matchArgv_ne_zero_iff s1 argv).mp hm1
  obtain ⟨hne2, hl2, h322, hf2⟩ := (matchArgv_ne_zero_iff s2 argv).mp hm2
  have hrank : (matchArgv s2 argv).1 < (matchArgv s1 argv).1 := by
    rw [matchArgv_succ s1 argv hl1 h321 hf1, matchArgv_succ s2 argv hl2 h322 hf2]
    show rankSum (s2.map segCode) 0 < rankSum (s1.map segCode) 0
    have hj2 : j < s2.length := by omega
    have hmap1 : s1.map segCode =
        (s1.take j).map segCode ++
          segCode (s1.getD j seg0) :: (s1.drop (j + 1)).map segCode := by
      conv_lhs => rw [list_decomp_at s1 j seg0 hj]
      rw [List.map_append, List.map_cons]
    have hmap2 : s2.map segCode =
        (s2.take j).map segCode ++
          segCode (s2.getD j seg0) :: (s2.drop (j + 1)).map segCode := by
      conv_lhs => rw [list_decomp_at s2 j seg0 hj2]
      rw [List.map_append, List.map_cons]
    have hpre' : (s2.take j).map segCode = (s1.take j).map segCode := by
      apply map_segCode_eq_of_kinds
      · rw [List.length_take, List.length_take]
        omega
      · intro k hk
        rw [List.length_take] at hk
        have hkj : k < j := by omega
        have g1 : (s2.take j).getD k seg0 = s2.getD k seg0 := by
          rw [List.getD_eq_getElem?_getD, List.getD_eq_getElem?_getD,
            List.getElem?_take_of_lt hkj]
        have g2 : (s1.take j).getD k seg0 = s1.getD k seg0 := by
          rw [List.getD_eq_getElem?_getD, List.getD_eq_getElem?_getD,
            List.getElem?_take_of_lt hkj]
        rw [g1, g2]
        exact (hpre k hkj).symm
    rw [hmap1, hmap2, hpre', segCode_of_litK hk1, segCode_of_paramK hk2]
    apply rankSum_lt_of_lex
    · rw [List.length_map, List.length_map, List.length_take, List.length_drop]
      omega
    · intro c hc
      simp only [List.mem_map] at hc
      obtain ⟨x, _, rfl⟩ := hc
      have := segCode_le_two x
      omega
    · omega
  refine ⟨hrank, ?_⟩
  intro h1 h2 d1 d2
  exact bestMatch_two ⟨s1, h1, d1⟩ ⟨s2, h2, d2⟩ argv hm1 hm2 hrank

/-- C2 witness: `"users me"` vs `"users <id>"` on `["users", "me"]` — the
literal route ranks higher and wins dispatch when registered second. -/
theorem c2_witness :
    (matchArgv [litSeg "users", paramSeg "id"] ["users", "me"]).1 <
      (matchArgv [litSeg "users", litSeg "me"] ["users", "me"]).1 ∧
    ((Router.mk [(⟨[litSeg "users", paramSeg "id"], fun _ s => (s, none), "b"⟩ : Route Unit),
        ⟨[litSeg "users", litSeg "me"], fun _ s => (s, none), "a"⟩]).bestMatch
        ["users", "me"]).map Prod.fst = some 1 := by
  have h := @c2_literal_beats_param Unit [litSeg "users", litSeg "me"]
    [litSeg "users", paramSeg "id"] ["users", "me"] 1 (by decide) (by decide) (by decide)
    (by decide) (by decide) (by decide) (by decide)
  exact ⟨h.1, (h.2 (fun _ s => (s, none)) (fun _ s => (s, none)) "a" "b").2⟩

theorem matchFrom_iff_pointwise :
    ∀ (ss : List Segment) (argv : List String) (i : Nat),
    (∀ s ∈ ss, (s.lit ≠ "" ∧ s.param = "") ∨ (s.lit = "" ∧ s.param ≠ "")) →
    (matchFrom ss argv i = true ↔
      ∀ k, k < ss.length → (ss.getD k seg0).lit ≠ "" →
        argv.getD (i + k) "" = (ss.getD k seg0).lit) := by
  intro ss
  induction ss with
  | nil =>
      intro argv i _
      simp [matchFrom]
  | cons s ss ih =>
      intro argv i hwf
      have hwftail : ∀ x ∈ ss, (x.lit ≠ "" ∧ x.param = "") ∨ (x.lit = "" ∧ x.param ≠ "") :=
        fun x hx => hwf x (List.mem_cons_of_mem _ hx)
      rw [matchFrom_cons, Bool.and_eq_true]
      constructor
      · rintro ⟨h1, h2⟩ k hk hlit
        cases k with
        | zero =>
            simp only [List.getD_cons_zero] at hlit ⊢
            rw [segMatch_lit hlit] at h1
            rw [Nat.add_zero]
            exact eq_of_beq h1
        | succ k =>
            simp only [List.getD_cons_succ] at hlit ⊢
            have hres := ((ih argv (i + 1) hwftail).mp h2) k
              (by simp only [List.length_cons] at hk; omega) hlit
            rw [show i + (k + 1) = (i + 1) + k from by omega]
            exact hres
      · intro hall
        constructor
        · rcases hwf s (List.mem_cons_self _ _) with ⟨hl, _⟩ | ⟨hl, hp⟩
          · have hres := hall 0 (by simp) (by simpa using hl)
            simp only [List.getD_cons_zero, Nat.add_zero] at hres
            rw [segMatch_lit hl]
            exact beq_iff_eq.mpr hres
          · rw [segMatch_nonlit hl]
            simpa using hp
        · apply (ih argv (i + 1) hwftail).mpr
          intro k hk hlit
          have hres := hall (k + 1) (by simp only [List.length_cons]; omega)
            (by simpa using hlit)
          rw [show i + (k + 1) = i + 1 + k from by omega] at hres
          simpa using hres

/-- C3 counterexample: the route `"<x> <x>"` matches `["a", "b"]`, but the
captured params send `"x"` to `"b"`, the token at the LAST position named
`x` — not to `"a"`, the token at the first `<x>` position, as the claim's
per-position reading requires (a later binding of a duplicated name
overwrites the earlier one). -/
theorem c3_counterexample :
    (matchArgv [paramSeg "x", paramSeg "x"] ["a", "b"]).1 ≠ 0 ∧
    (matchArgv [paramSeg "x", paramSeg "x"] ["a", "b"]).2 "x" ≠ some "a" ∧
    (matchArgv [paramSeg "x", paramSeg "x"] ["a", "b"]).2 "x" = some "b" := by
  refine ⟨by decide, by decide, by decide⟩

/-- C3 (amended): for a route whose segments each have exactly one kind
and whose segment count n is between 1 and 32, `matchArgv` reports a
match (nonzero rank) iff argv has at least n tokens and every literal
segment is equal to the argv token at its position (parameter segments
accept anything); on a match, a parameter segment's name maps to the argv
token at its own position whenever no later parameter segment reuses that
name (for a duplicated name the LAST binding wins — the unamended
per-position claim is refuted by `c3_counterexample`); and a route with
more than 32 segments never matches any argv. -/
theorem c3_match_characterization (segs : List Segment) (argv : List String)
    (hwf : ∀ s ∈ segs, (s.lit ≠ "" ∧ s.param = "") ∨ (s.lit = "" ∧ s.param ≠ ""))
    (hn1 : 1 ≤ segs.length) (hn32 : segs.length ≤ 32) :
    ((matchArgv segs argv).1 ≠ 0 ↔
      (segs.length ≤ argv.length ∧
        ∀ k, k < segs.length → (segs.getD k seg0).lit ≠ "" →
          argv.getD k "" = (segs.getD k seg0).lit)) ∧
    ((matchArgv segs argv).1 ≠ 0 →
      ∀ k, k < segs.length → (segs.getD k seg0).lit = "" →
        (∀ s ∈ segs.drop (k + 1), s.lit = "" → s.param ≠ (segs.getD k seg0).param) →
        (matchArgv segs argv).2 (segs.getD k seg0).param = some (argv.getD k "")) ∧
    (∀ (segs2 : List Segment) (argv2 : List String),
      segs2.length > 32 → (matchArgv segs2 argv2).1 = 0) := by
  refine ⟨?_, ?_, ?_⟩
  · constructor
    · intro h
      obtain ⟨hne, hlen, h32, hf⟩ := (matchArgv_ne_zero_iff segs argv).mp h
      refine ⟨hlen, ?_⟩
      intro k hk hlit
      have hres := ((matchFrom_iff_pointwise segs argv 0 hwf).mp hf) k hk hlit
      simpa using hres
    · rintro ⟨hlen, hall⟩
      apply (matchArgv_ne_zero_iff segs argv).mpr
      refine ⟨?_, hlen, hn32, ?_⟩
      · intro hnil
        rw [hnil] at hn1
        simp at hn1
      · apply (matchFrom_iff_pointwise segs argv 0 hwf).mpr
        intro k hk hlit
        simpa using hall k hk hlit
  · intro h k hk hlit hlater
    obtain ⟨hne, hlen, h32, hf⟩ := (matchArgv_ne_zero_iff segs argv).mp h
    have hunfold : matchArgv segs argv = matchLoop segs argv 0 0 Params.empty := by
      unfold matchArgv
      rw [if_neg (by omega), if_neg (by omega)]
    rw [hunfold]
    have hres := matchLoop_param_last segs argv 0 0 Params.empty k hf hk hlit hlater
    simpa using hres
  · intro segs2 argv2 h32
    unfold matchArgv
    by_cases hl : argv2.length < segs2.length
    · rw [if_pos hl]
    · rw [if_neg hl, if_pos h32]

/-- C3 witness: the route `"a <x>"` matches `["a", "b"]` and binds `x` to
`"b"`; the match fails on `["c", "b"]` where the literal mismatches. -/
theorem c3_witness :
    (matchArgv [litSeg "a", paramSeg "x"] ["a", "b"]).1 ≠ 0 ∧
    (matchArgv [litSeg "a", paramSeg "x"] ["a", "b"]).2 "x" = some "b" ∧
    ¬(matchArgv [litSeg "a", paramSeg "x"] ["c", "b"]).1 ≠ 0 := by
  have h := c3_match_characterization [litSeg "a", paramSeg "x"] ["a", "b"]
    (by decide) (by decide) (by decide)
  have hmm : (matchArgv [litSeg "a", paramSeg "x"] ["a", "b"]).1 ≠ 0 :=
    h.1.mpr ⟨by decide, by decide⟩
  have hc := c3_match_characterization [litSeg "a", paramSeg "x"] ["c", "b"]
    (by decide) (by decide) (by decide)
  refine ⟨hmm, ?_, ?_⟩
  · exact h.2.1 hmm 1 (by decide) (by decide) (by decide)
  · intro hcon
    obtain ⟨_, hall⟩ := hc.1.mp hcon
    have := hall 0 (by decide) (by decide)
    revert this
    decide

theorem matchArgv_nil (argv : List String) : matchArgv [] argv = (0, Params.empty) := by
  unfold matchArgv
  rw [if_neg (by simp), if_neg (by simp)]
  rfl

theorem routeRank_zero_of_ge {σ : Type} (r : Router σ) (argv : List String) (k : Nat)
    (hk : r.routes.length ≤ k) : routeRank r argv k = 0 := by
  unfold routeRank
  rw [List.getD_eq_default _ _ hk]
  rw [show (defaultRoute σ).segments = [] from rfl, matchArgv_nil]

/-- C4: dispatch semantics of `Run` via `bestMatch`. When no registered
route matches argv, `bestMatch` is `none` and `Run` returns the state
untouched with the "no matching command" error, invoking no handler. When
some route matches, `bestMatch` selects exactly one route: the
earliest-registered one among those of maximal rank (the running best is
displaced only under strictly greater rank, so an equal-rank later route
never wins), and `Run` returns precisely that route's handler applied to
the constructed request and state. -/
theorem c4_dispatch (σ : Type) (r : Router σ) (argv : List String) (s : σ) :
    ((∀ k, routeRank r argv k = 0) →
      r.bestMatch argv = none ∧ r.Run argv s = (s, some "no matching command")) ∧
    (∀ j, routeRank r argv j ≠ 0 →
      ∃ i req, r.bestMatch argv = some (i, req) ∧ i < r.routes.length ∧
        routeRank r argv i ≠ 0 ∧
        (∀ k, routeRank r argv k ≤ routeRank r argv i) ∧
        (∀ k, k < i → routeRank r argv k < routeRank r argv i) ∧
        r.Run argv s = (r.routes.getD i (defaultRoute σ)).handler req s) := by
  constructor
  · intro hall
    have hnil : cands argv r.routes 0 = [] :=
      (cands_eq_nil_iff argv r.routes 0).mpr (fun k _ => hall k)
    have hbm : r.bestMatch argv = none := (bestMatch_none_iff r argv).mpr hnil
    refine ⟨hbm, ?_⟩
    unfold Router.Run
    rw [hbm]
  · intro j hj
    have hjlen : j < r.routes.length := by
      by_contra hcon
      exact hj (routeRank_zero_of_ge r argv j (by omega))
    have hne : cands argv r.routes 0 ≠ [] := by
      intro hnil
      exact hj ((cands_eq_nil_iff argv r.routes 0).mp hnil j hjlen)
    obtain ⟨b, hmem, hbm, hmax, hstrict⟩ := bestMatch_some_spec r argv hne
    obtain ⟨k, hklen, hkrank, hbeq⟩ := (cands_mem_iff argv r.routes 0 b).mp hmem
    have hidx : b.idx = k := by rw [hbeq]; simp
    have hbrank : b.rank = routeRank r argv k := by rw [hbeq]; rfl
    refine ⟨b.idx, ⟨argv, b.params, b.extra⟩, hbm, by omega, ?_, ?_, ?_, ?_⟩
    · rw [hidx]
      exact hkrank
    · intro k2
      by_cases hk2 : k2 < r.routes.length
      · by_cases hz : routeRank r argv k2 = 0
        · rw [hz, hidx, hbrank.symm] at *
          rw [hz]
          exact Nat.zero_le _
        · have hmem2 : (⟨k2, routeRank r argv k2,
              (matchArgv ((r.routes.getD k2 (defaultRoute σ)).segments) argv).2,
              argv.drop ((r.routes.getD k2 (defaultRoute σ)).segments.length)⟩ : Cand) ∈
              cands argv r.routes 0 :=
            (cands_mem_iff argv r.routes 0 _).mpr ⟨k2, hk2, hz, by rw [Nat.zero_add]; rfl⟩
          have := hmax _ hmem2
          rw [hidx, ← hbrank]
          exact this
      · rw [routeRank_zero_of_ge r argv k2 (by omega), hidx, ← hbrank]
        exact Nat.zero_le _
    · intro k2 hk2
      by_cases hz : routeRank r argv k2 = 0
      · rw [hz, hidx]
        exact Nat.pos_of_ne_zero hkrank
      · have hk2len : k2 < r.routes.length := by omega
        have hmem2 : (⟨k2, routeRank r argv k2,
            (matchArgv ((r.routes.getD k2 (defaultRoute σ)).segments) argv).2,
            argv.drop ((r.routes.getD k2 (defaultRoute σ)).segments.length)⟩ : Cand) ∈
            cands argv r.routes 0 :=
          (cands_mem_iff argv r.routes 0 _).mpr ⟨k2, hk2len, hz, by rw [Nat.zero_add]; rfl⟩
        have := hstrict _ hmem2 hk2
        rw [hidx, ← hbrank]
        exact this
    · unfold Router.Run
      rw [hbm]

/-- C4 witness: two routes with the identical pattern `"cmd"` — the
earliest-registered handler runs on a tie; a router whose only route is
`"x"` fails on `["nope"]` with the no-match error and untouched state. -/
theorem c4_witness :
    ((Router.mk [(⟨[litSeg "cmd"], fun _ s => (s ++ ["first"], none), "F"⟩ :
          Route (List String)),
        ⟨[litSeg "cmd"], fun _ s => (s ++ ["second"], none), "S"⟩]).Run ["cmd"] []).1 =
      ["first"] ∧
    (Router.mk [(⟨[litSeg "x"], fun _ s => (s ++ ["x"], none), "X"⟩ :
        Route (List String))]).Run ["nope"] [] = ([], some "no matching command") := by
  constructor
  · have h := (c4_dispatch (List String)
      (Router.mk [⟨[litSeg "cmd"], fun _ s => (s ++ ["first"], none), "F"⟩,
        ⟨[litSeg "cmd"], fun _ s => (s ++ ["second"], none), "S"⟩]) ["cmd"] []).2 0
      (by decide)
    obtain ⟨i, req, hbm, hlen, hne, hmax, hstrict, hrun⟩ := h
    have hi : i = 0 := by
      have h2 : i < 2 := by simpa using hlen
      have h01 : i = 0 ∨ i = 1 := by omega
      rcases h01 with h0 | h1
      · exact h0
      · exfalso
        subst h1
        have hlt := hstrict 0 (by omega)
        have heq : routeRank
            (Router.mk [(⟨[litSeg "cmd"], fun _ s => (s ++ ["first"], none), "F"⟩ :
                Route (List String)),
              ⟨[litSeg "cmd"], fun _ s => (s ++ ["second"], none), "S"⟩]) ["cmd"] 0 =
            routeRank
            (Router.mk [(⟨[litSeg "cmd"], fun _ s => (s ++ ["first"], none), "F"⟩ :
                Route (List String)),
              ⟨[litSeg "cmd"], fun _ s => (s ++ ["second"], none), "S"⟩]) ["cmd"] 1 := rfl
        omega
    subst hi
    rw [hrun]
    rfl
  · have hall : ∀ k, routeRank
        (Router.mk [(⟨[litSeg "x"], fun _ s => (s ++ ["x"], none), "X"⟩ :
          Route (List String))]) ["nope"] k = 0 := by
      intro k
      match k with
      | 0 => decide
      | k + 1 => exact routeRank_zero_of_ge _ _ _ (by simp)
    exact ((c4_dispatch (List String)
      (Router.mk [⟨[litSeg "x"], fun _ s => (s ++ ["x"], none), "X"⟩]) ["nope"] []).1
      hall).2

/-- C5: `Builder.Handle` registers the handler wrapped by the accumulated
middleware list applied outermost-first — for the list [m1, m2, m3] the
registered handler is m1 (m2 (m3 h)), i.e. the fold of application from
the right — where nested `With` calls append to the list and `Route`
children inherit a copy of it, in the untyped and the typed builder
alike; consequently, with trace middlewares A then B the observed
execution order is before-A, before-B, handler, after-B, after-A. -/
theorem c5_middleware_order (σ : Type) (b : Builder σ) (r : Router σ)
    (path desc : String) (h : Handler σ) :
    ((b.Handle r path desc h).routes.getLast? = some
      ⟨parseSegments (goFields (String.intercalate " " (b.pfx ++ goFields path))),
        wrapLoop b.mws h, desc⟩) ∧
    (∀ (mws : List (Middleware σ)) (h2 : Handler σ),
      wrapLoop mws h2 = mws.foldr (fun m k => m k) h2) ∧
    (∀ (m1 m2 m3 : Middleware σ) (h2 : Handler σ),
      wrapLoop [m1, m2, m3] h2 = m1 (m2 (m3 h2))) ∧
    (∀ (ms1 ms2 : List (Middleware σ)) (path2 : String),
      ((b.With ms1).With ms2).mws = b.mws ++ ms1 ++ ms2 ∧
      (b.RouteChild path2).mws = b.mws ∧
      ((b.With ms1).Handle r path desc h).routes.getLast? = some
        ⟨parseSegments (goFields (String.intercalate " " (b.pfx ++ goFields path))),
          wrapLoop (b.mws ++ ms1) h, desc⟩) ∧
    (∀ (T : Type) (res : Resolver σ T) (ch : ContextHandler σ T),
      ((ContextBuilder.mk b res).Handle r path desc ch).routes.getLast? = some
        ⟨parseSegments (goFields (String.intercalate " " (b.pfx ++ goFields path))),
          wrapLoop b.mws (ctxBaseHandler res ch), desc⟩) ∧
    (((((Builder.mk [] []).With [traceMW "A"]).With [traceMW "B"]).Handle
        (emptyRouter (List String)) "cmd" "demo" traceHandler).Run ["cmd"] [] =
      (["before-A", "before-B", "handler", "after-B", "after-A"], none)) := by
  refine ⟨?_, ?_, ?_, ?_, ?_, ?_⟩
  · simp [Builder.Handle, Router.Handle]
  · exact fun mws h2 => wrapLoop_eq_foldr mws h2
  · intro m1 m2 m3 h2
    rfl
  · intro ms1 ms2 path2
    refine ⟨by simp [Builder.With], rfl, ?_⟩
    simp [Builder.Handle, Router.Handle, Builder.With]
  · intro T res ch
    simp [ContextBuilder.Handle, Router.Handle]
  · rfl

theorem withChildContext_resolve {σ T U : Type} (b : ContextBuilder σ T)
    (f : T → Request → σ → σ × Except String U) (req : Request) (s : σ) :
    (WithChildContext b f).resolve req s =
      match b.resolve req s with
      | (s1, .error e) => (s1, .error e)
      | (s1, .ok t) => f t req s1 := rfl

theorem ctxBaseHandler_eq {σ T : Type} (res : Resolver σ T) (h : ContextHandler σ T)
    (req : Request) (s : σ) :
    ctxBaseHandler res h req s =
      match res req s with
      | (s1, .error e) => (s1, some e)
      | (s1, .ok v) => h req v s1 := rfl

/-- C6: typed-context layering. When the parent resolver of a
`WithChildContext` layer fails, the composed resolver returns the
parent's error and post-state unchanged — identically for every child
function, so the child is never invoked; when the parent succeeds, the
child function receives the parent's value and the request, running on
the parent's post-state (parent-to-child order at dispatch time). The
base handler built by `ContextBuilder.Handle` relays a failing resolver's
error verbatim — identically for every handler body, so the body is never
entered — and on success invokes the handler with the request and the
resolved value. A three-layer chain whose middle resolver fails shows the
trace stopping there and the error propagating unchanged through
`Handle`'s base handler. -/
theorem c6_resolver_chain (σ T U : Type) :
    (∀ (b : ContextBuilder σ T) (f : T → Request → σ → σ × Except String U)
        (req : Request) (s s1 : σ) (e : String),
      b.resolve req s = (s1, .error e) →
      (WithChildContext b f).resolve req s = (s1, .error e) ∧
      ∀ (f2 : T → Request → σ → σ × Except String U),
        (WithChildContext b f2).resolve req s = (s1, .error e)) ∧
    (∀ (b : ContextBuilder σ T) (f : T → Request → σ → σ × Except String U)
        (req : Request) (s s1 : σ) (t : T),
      b.resolve req s = (s1, .ok t) →
      (WithChildContext b f).resolve req s = f t req s1) ∧
    (∀ (res : Resolver σ T) (h : ContextHandler σ T) (req : Request) (s s1 : σ)
        (e : String),
      res req s = (s1, .error e) →
      ctxBaseHandler res h req s = (s1, some e) ∧
      ∀ (h2 : ContextHandler σ T), ctxBaseHandler res h2 req s = (s1, some e)) ∧
    (∀ (res : Resolver σ T) (h : ContextHandler σ T) (req : Request) (s s1 : σ)
        (t : T),
      res req s = (s1, .ok t) →
      ctxBaseHandler res h req s = h req t s1) ∧
    ((WithChildContext (WithChildContext
        (WithContext (Builder.mk [] [])
          (fun _ s => (s ++ ["r0"], Except.ok 1) : Resolver (List String) Nat))
        (fun _ _ s => (s ++ ["f1"], Except.error "boom") :
          Nat → Request → List String → List String × Except String Nat))
        (fun _ _ s => (s ++ ["f2"], Except.ok 3) :
          Nat → Request → List String → List String × Except String Nat)).resolve
        ⟨[], Params.empty, []⟩ [] = (["r0", "f1"], Except.error "boom") ∧
      ctxBaseHandler (WithChildContext (WithChildContext
        (WithContext (Builder.mk [] [])
          (fun _ s => (s ++ ["r0"], Except.ok 1) : Resolver (List String) Nat))
        (fun _ _ s => (s ++ ["f1"], Except.error "boom") :
          Nat → Request → List String → List String × Except String Nat))
        (fun _ _ s => (s ++ ["f2"], Except.ok 3) :
          Nat → Request → List String → List String × Except String Nat)).resolve
        (fun _ _ s => (s ++ ["handler"], none) : ContextHandler (List String) Nat)
        ⟨[], Params.empty, []⟩ [] =
        (["r0", "f1"], some "boom")) := by
  refine ⟨?_, ?_, ?_, ?_, ?_, ?_⟩
  · intro b f req s s1 e hres
    constructor
    · rw [withChildContext_resolve, hres]
    · intro f2
      rw [withChildContext_resolve, hres]
  · intro b f req s s1 t hres
    rw [withChildContext_resolve, hres]
  · intro res h req s s1 e hres
    constructor
    · rw [ctxBaseHandler_eq, hres]
    · intro h2
      rw [ctxBaseHandler_eq, hres]
  · intro res h req s s1 t hres
    rw [ctxBaseHandler_eq, hres]
  · rfl
  · rfl

/-- C6 witness: a failing parent resolver propagates its error and state
through `WithChildContext` unchanged. -/
theorem c6_witness :
    (WithChildContext (WithContext (Builder.mk [] [])
        (fun _ s => (s ++ ["p"], Except.error "bad") : Resolver (List String) Nat))
        (fun _ _ s => (s ++ ["child"], Except.ok 2) :
          Nat → Request → List String → List String × Except String Nat)).resolve
        ⟨[], Params.empty, []⟩ [] = (["p"], Except.error "bad") :=
  ((c6_resolver_chain (List String) Nat Nat).1 _ _ ⟨[], Params.empty, []⟩ [] ["p"] "bad"
    rfl).1

/-- C7: branch isolation. Builder-tree programs only ever allocate fresh
arrays (every child is built from `append(append([]string{}, parent...),
extension...)`), so: (1) running any program extends the store without
touching any existing array; (2) hence a builder valid before any
program runs reads the same prefix and middleware afterwards — nothing a
child branch does is observable through the parent; (3) the child
builder handed to a second sibling `Route` branch reads exactly the
parent's prefix extended by its own path, and exactly the parent's
middleware, regardless of the program the first sibling branch ran — and
by (1)/(2) this is symmetric in the order the branches are built; the
final conjunct pins that this allocChild builder is precisely the one a
sequenced second sibling receives. -/
theorem c7_branch_isolation (σ : Type) :
    (∀ (p : BProg σ) (b : ABuilder) (st : AStore σ),
      StoreExtends st (runProg p b st)) ∧
    (∀ (p : BProg σ) (b : ABuilder) (st : AStore σ), b.valid st →
      readPfx (runProg p b st) b = readPfx st b ∧
      readMws (runProg p b st) b = readMws st b) ∧
    (∀ (b : ABuilder) (st : AStore σ) (p1 p2 : String)
        (f1 : ABuilder → BProg σ), b.valid st →
      readPfx (allocChild (runProg (.route p1 f1) b st) b (goFields p2) []).2
          (allocChild (runProg (.route p1 f1) b st) b (goFields p2) []).1 =
        readPfx st b ++ goFields p2 ∧
      readMws (allocChild (runProg (.route p1 f1) b st) b (goFields p2) []).2
          (allocChild (runProg (.route p1 f1) b st) b (goFields p2) []).1 =
        readMws st b) ∧
    (∀ (b : ABuilder) (st : AStore σ) (p1 p2 : String)
        (f1 f2 : ABuilder → BProg σ),
      runProg (.seq (.route p1 f1) (.route p2 f2)) b st =
        runProg (f2 (allocChild (runProg (.route p1 f1) b st) b (goFields p2) []).1)
          (allocChild (runProg (.route p1 f1) b st) b (goFields p2) []).1
          (allocChild (runProg (.route p1 f1) b st) b (goFields p2) []).2) := by
  refine ⟨runProg_extends, ?_, ?_, ?_⟩
  · intro p b st hv
    exact ⟨readPfx_of_extends hv (runProg_extends p b st),
      readMws_of_extends hv (runProg_extends p b st)⟩
  · intro b st p1 p2 f1 hv
    have hext := runProg_extends (BProg.route p1 f1) b st
    have hv1 := valid_of_extends hv hext
    constructor
    · rw [readPfx_allocChild, readPfx_of_extends hv hext]
    · rw [readMws_allocChild, readMws_of_extends hv hext, List.append_nil]
  · intro b st p1 p2 f1 f2
    rfl

/-- C7 witness: after a first sibling branch `Route "comp"` registers a
handler, the second sibling built from the root still reads prefix
`["tools"]` — the root's empty prefix extended by its own path only. -/
theorem c7_witness :
    readPfx (allocChild (runProg (.route "comp" (fun _ => .handle "x" "d"
        (fun _ s => (s, none)))) rootBuilder (rootStore Unit)) rootBuilder
        (goFields "tools") []).2
      (allocChild (runProg (.route "comp" (fun _ => .handle "x" "d"
        (fun _ s => (s, none)))) rootBuilder (rootStore Unit)) rootBuilder
        (goFields "tools") []).1 = ["tools"] := by
  have h := ((c7_branch_isolation Unit).2.2.1 rootBuilder (rootStore Unit) "comp" "tools"
    (fun _ => .handle "x" "d" (fun _ s => (s, none)))
    ⟨by decide, by decide⟩).1
  rw [h]
  rfl

/-- C8: whenever dispatch selects a winning route, the constructed
request's Extra is exactly argv with the winning route's segment count
dropped from the front — the trailing tokens in original order and
content — and Extra is empty precisely when argv's length equals the
winning route's segment count. -/
theorem c8_extra_invariant {σ : Type} (r : Router σ) (argv : List String)
    (i : Nat) (req : Request) (hbm : r.bestMatch argv = some (i, req)) :
    req.extra = argv.drop ((r.routes.getD i (defaultRoute σ)).segments.length) ∧
    (req.extra = [] ↔
      argv.length = (r.routes.getD i (defaultRoute σ)).segments.length) := by
  have hne : cands argv r.routes 0 ≠ [] := by
    intro hnil
    rw [(bestMatch_none_iff r argv).mpr hnil] at hbm
    exact Option.noConfusion hbm
  obtain ⟨b, hmem, hbm2, _, _⟩ := bestMatch_some_spec r argv hne
  rw [hbm2] at hbm
  have hpair := Option.some.inj hbm
  have hidx : b.idx = i := congrArg Prod.fst hpair
  have hreq : req = ⟨argv, b.params, b.extra⟩ := (congrArg Prod.snd hpair).symm
  obtain ⟨k, hk, hrk, hbeq⟩ := (cands_mem_iff argv r.routes 0 b).mp hmem
  have hidxk : b.idx = k := by rw [hbeq]; simp
  have hik : i = k := by omega
  have hextra : b.extra =
      argv.drop ((r.routes.getD k (defaultRoute σ)).segments.length) := by
    rw [hbeq]
  have hextra2 : req.extra =
      argv.drop ((r.routes.getD i (defaultRoute σ)).segments.length) := by
    rw [hreq, hik]
    exact hextra
  obtain ⟨_, hlen2, _, _⟩ := (matchArgv_ne_zero_iff _ argv).mp hrk
  refine ⟨hextra2, ?_⟩
  rw [hextra2, List.drop_eq_nil_iff]
  rw [hik]
  constructor
  · intro hle
    omega
  · intro heq
    omega

/-- C8 witness: the single route `"a <x>"` on argv `["a", "b", "c"]` wins
with Extra `["c"]` — argv minus its two matched positions. -/
theorem c8_witness :
    (⟨["a", "b", "c"], Params.empty.insert "x" "b", ["c"]⟩ : Request).extra =
      ["a", "b", "c"].drop (((Router.mk [(⟨[litSeg "a", paramSeg "x"],
        fun _ s => (s, none), "d"⟩ : Route Unit)]).routes.getD 0
        (defaultRoute Unit)).segments.length) :=
  (c8_extra_invariant (Router.mk [⟨[litSeg "a", paramSeg "x"],
    fun _ s => (s, none), "d"⟩]) ["a", "b", "c"] 0
    ⟨["a", "b", "c"], Params.empty.insert "x" "b", ["c"]⟩ rfl).1

/-- C9: `parseSegments` emits no segment for a pure-integer token;
erasing sort hints, the emitted segments are exactly the non-integer
tokens in input order, each bracketed token a parameter named by its
interior and every other token a literal; parsing splits around any
token-list boundary with the pending hint threaded through, an integer
token sets the pending hint that is attached to the next emitted segment
(the last integer before it winning) after which the hint is reset to 0,
trailing integer tokens are discarded, and sort hints have no effect on
`matchArgv`. -/
theorem c9_parse_segments :
    (∀ (parts : List String) (pending : Int),
      (parseSegLoop parts pending).map stripSort =
        (parts.filter (fun p => (goAtoi p).isNone)).map claimTokSeg) ∧
    (∀ (xs ys : List String),
      parseSegments (xs ++ ys) = parseSegments xs ++ parseSegLoop ys (pendAfter xs 0)) ∧
    (∀ (tok : String) (rest : List String) (pending : Int), goAtoi tok = none →
      parseSegLoop (tok :: rest) pending =
        { claimTokSeg tok with sort := pending } :: parseSegLoop rest 0) ∧
    (∀ (n tok : String) (rest : List String) (pending v : Int),
      goAtoi n = some v → goAtoi tok = none →
      parseSegLoop (n :: tok :: rest) pending =
        { claimTokSeg tok with sort := v } :: parseSegLoop rest 0) ∧
    (∀ (parts ints : List String), (∀ p ∈ ints, (goAtoi p).isSome) →
      parseSegments (parts ++ ints) = parseSegments parts) ∧
    (∀ (xs : List String) (t : String) (p : Int),
      (∀ v, goAtoi t = some v → pendAfter (xs ++ [t]) p = v) ∧
      (goAtoi t = none → pendAfter (xs ++ [t]) p = 0)) ∧
    (∀ (segs : List Segment) (argv : List String) (g : Segment → Int),
      matchArgv (segs.map (fun s => { s with sort := g s })) argv =
        matchArgv segs argv) := by
  have hstep : ∀ (tok : String) (rest : List String) (pending : Int),
      goAtoi tok = none →
      parseSegLoop (tok :: rest) pending =
        { claimTokSeg tok with sort := pending } :: parseSegLoop rest 0 := by
    intro tok rest pending hA
    rw [parseSegLoop_cons, hA]
    by_cases hbr : tok.data.head? = some '<' ∧ tok.data.getLast? = some '>'
    · rw [if_pos hbr]
      simp [claimTokSeg, hbr]
    · rw [if_neg hbr]
      simp [claimTokSeg, hbr]
  refine ⟨parseSegLoop_stripSort, ?_, hstep, ?_, ?_, ?_, matchArgv_sort_blind⟩
  · intro xs ys
    exact parseSegLoop_append xs ys 0
  · intro n tok rest pending v hn hA
    rw [parseSegLoop_cons, hn]
    exact hstep tok rest v hA
  · intro parts ints hall
    unfold parseSegments
    rw [parseSegLoop_append parts ints 0, parseSegLoop_allInt ints hall _,
      List.append_nil]
  · intro xs t p
    constructor
    · intro v hv
      rw [pendAfter_append, pendAfter_cons, hv]
      rfl
    · intro hA
      rw [pendAfter_append, pendAfter_cons, hA]
      rfl

/-- C9 witness: an integer token `"2"` sets the pending hint attached to
the next emitted segment `"image"` and then reset. -/
theorem c9_witness :
    parseSegLoop ["2", "image", "build"] 0 =
      { claimTokSeg "image" with sort := 2 } :: parseSegLoop ["build"] 0 :=
  (c9_parse_segments).2.2.2.1 "2" "image" ["build"] 0 2 rfl rfl

theorem fieldsGo_all_space :
    ∀ (cs : List Char), (∀ c ∈ cs, goIsSpace c = true) → fieldsGo cs [] = [] := by
  intro cs
  induction cs with
  | nil => intro _; rfl
  | cons c cs ih =>
      intro hall
      show (if goIsSpace c then
          (if ([] : List Char) = [] then fieldsGo cs [] else
            String.mk ([] : List Char).reverse :: fieldsGo cs [])
        else fieldsGo cs [c]) = []
      rw [if_pos (hall c (List.mem_cons_self _ _)), if_pos rfl]
      exact ih (fun x hx => hall x (List.mem_cons_of_mem _ hx))

/-- C10: a route with no segments never matches (`matchArgv` is 0 on every
argv), as is a route containing a degenerate segment with neither literal
text nor parameter name; an empty/whitespace-only/all-integer pattern
parses to zero segments and the token `"<>"` parses to a degenerate
segment; `bestMatch` never selects such a route (the winner always has a
nonempty segment list free of degenerate segments); and a router whose
routes are all of this shape returns the "no matching command" error on
every input, leaving the state untouched. -/
theorem c10_degenerate_unreachable (σ : Type) :
    (∀ argv : List String, (matchArgv [] argv).1 = 0) ∧
    (∀ (segs : List Segment) (argv : List String) (s : Segment),
      s ∈ segs → s.lit = "" → s.param = "" → (matchArgv segs argv).1 = 0) ∧
    (∀ parts : List String, (∀ p ∈ parts, (goAtoi p).isSome) →
      parseSegments parts = []) ∧
    (∀ s : String, (∀ c ∈ s.data, goIsSpace c = true) → goFields s = []) ∧
    (parseSegments ["<>"] = [{ lit := "", param := "", sort := 0 }]) ∧
    (∀ (r : Router σ) (argv : List String) (i : Nat) (req : Request),
      r.bestMatch argv = some (i, req) →
      (r.routes.getD i (defaultRoute σ)).segments ≠ [] ∧
      ∀ s ∈ (r.routes.getD i (defaultRoute σ)).segments, s.lit = "" → s.param ≠ "") ∧
    (∀ r : Router σ, (∀ rt ∈ r.routes, rt.segments = [] ∨
        ∃ s ∈ rt.segments, s.lit = "" ∧ s.param = "") →
      ∀ (argv : List String) (st : σ),
        r.bestMatch argv = none ∧ r.Run argv st = (st, some "no matching command")) := by
  have hdeg : ∀ (segs : List Segment) (argv : List String) (s : Segment),
      s ∈ segs → s.lit = "" → s.param = "" → (matchArgv segs argv).1 = 0 := by
    intro segs argv s hmem hlit hparam
    by_contra hne
    obtain ⟨_, _, _, hf⟩ := (matchArgv_ne_zero_iff segs argv).mp hne
    have hpos := codes_pos_of_matchFrom segs argv 0 hf (segCode s)
      (List.mem_map_of_mem segCode hmem)
    have hzero : segCode s = 0 := by simp [segCode, hlit, hparam]
    omega
  have hnilrank : ∀ argv : List String, (matchArgv [] argv).1 = 0 := by
    intro argv
    rw [matchArgv_nil]
  have hrank0 : ∀ (r : Router σ) (argv : List String),
      (∀ rt ∈ r.routes, rt.segments = [] ∨
        ∃ s ∈ rt.segments, s.lit = "" ∧ s.param = "") →
      ∀ k, k < r.routes.length →
        (matchArgv ((r.routes.getD k (defaultRoute σ)).segments) argv).1 = 0 := by
    intro r argv hall k hk
    have hmem : r.routes.getD k (defaultRoute σ) ∈ r.routes := by
      rw [List.getD_eq_getElem?_getD, List.getElem?_eq_getElem hk]
      exact List.getElem_mem hk
    rcases hall _ hmem with hnil | ⟨s, hsm, hsl, hsp⟩
    · rw [hnil]
      exact hnilrank argv
    · exact hdeg _ argv s hsm hsl hsp
  refine ⟨hnilrank, hdeg, ?_, ?_, by decide, ?_, ?_⟩
  · intro parts hall
    exact parseSegLoop_allInt parts hall 0
  · intro s hall
    exact fieldsGo_all_space s.data hall
  · intro r argv i req hbm
    have hne : cands argv r.routes 0 ≠ [] := by
      intro hnil
      rw [(bestMatch_none_iff r argv).mpr hnil] at hbm
      exact Option.noConfusion hbm
    obtain ⟨b, hmem, hbm2, _, _⟩ := bestMatch_some_spec r argv hne
    rw [hbm2] at hbm
    have hidx : b.idx = i := congrArg Prod.fst (Option.some.inj hbm)
    obtain ⟨k, hk, hrk, hbeq⟩ := (cands_mem_iff argv r.routes 0 b).mp hmem
    have hidxk : b.idx = k := by rw [hbeq]; simp
    have hik : i = k := by omega
    subst hik
    constructor
    · intro hnil
      apply hrk
      rw [hnil]
      exact hnilrank argv
    · intro s hsm hsl
      intro hsp
      exact hrk (hdeg _ argv s hsm hsl hsp)
  · intro r hall argv st
    have hnil : cands argv r.routes 0 = [] :=
      (cands_eq_nil_iff argv r.routes 0).mpr (hrank0 r argv hall)
    have hbm : r.bestMatch argv = none := (bestMatch_none_iff r argv).mpr hnil
    refine ⟨hbm, ?_⟩
    unfold Router.Run
    rw [hbm]

/-- C10 witness: a router holding only the routes parsed from `""` (zero
segments) and from `"<>"` (one degenerate segment) fails with the
no-match error on `["anything"]`. -/
theorem c10_witness :
    ((emptyRouter (List String)).Handle "" "empty" (fun _ s => (s ++ ["e"], none))
      |>.Handle "<>" "degenerate" (fun _ s => (s ++ ["d"], none))).Run
      ["anything"] [] = ([], some "no matching command") :=
  ((c10_degenerate_unreachable (List String)).2.2.2.2.2.2
    ((emptyRouter (List String)).Handle "" "empty" (fun _ s => (s ++ ["e"], none))
      |>.Handle "<>" "degenerate" (fun _ s => (s ++ ["d"], none)))
    (by
      intro rt hrt
      simp only [Router.Handle, emptyRouter, List.nil_append, List.mem_append,
        List.mem_singleton] at hrt
      rcases hrt with h1 | h1
      · subst h1
        exact Or.inl (by decide)
      · subst h1
        exact Or.inr ⟨⟨"", "", 0⟩, by decide, rfl, rfl⟩) ["anything"] []).2
